import Mathlib

/-!
Verification of the table layout engine of `docutils_rst_writer`
(`src/docutils_rst_writer/table.py`).

Strings are embedded as lists of characters (`Str`).  Python code that can
raise (`IndexError`, `ValueError` from `max()` on an empty collection,
`AssertionError`, `UnboundLocalError`) is embedded as `Option`-valued
functions returning `none` on those paths.  The `defaultdict(lambda: 0)`
dictionaries of `treeify` are embedded as association lists (`NatDict`)
whose key set matches the Python dictionary's key set.
-/

namespace RstWriter

abbrev Str := List Char

/-- One table cell as authored (`CellContent` in `table.py`). -/
structure CellContent where
  lines : List Str
  header : Bool
  morecols : Nat
  morerows : Nat
deriving DecidableEq, Repr

/-- Width of the longest line, 0 when there are no lines (`content_width`). -/
def CellContent.content_width (c : CellContent) : Nat :=
  (c.lines.map List.length).foldl max 0

/-- Number of lines (`content_height`). -/
def CellContent.content_height (c : CellContent) : Nat :=
  c.lines.length

/-- A positioned cell of the resolved tree (`TreeCell` in `table.py`). -/
inductive TreeCell where
  | mk (content : CellContent) (row : Nat) (column : Nat)
       (children : List TreeCell)

def TreeCell.content : TreeCell → CellContent
  | .mk c _ _ _ => c

def TreeCell.row : TreeCell → Nat
  | .mk _ r _ _ => r

def TreeCell.column : TreeCell → Nat
  | .mk _ _ col _ => col

def TreeCell.children : TreeCell → List TreeCell
  | .mk _ _ _ ch => ch

/-- Resolved layout (`TreeTable` in `table.py`). -/
structure TreeTable where
  header_row : Option Nat
  row_heights : List Nat
  column_widths : List Nat
  top_row : List TreeCell

instance : Inhabited TreeTable := ⟨⟨none, [], [], []⟩⟩

/-- The whole grid as authored (`Table` in `table.py`). -/
structure Table where
  column_widths : List Nat
  in_header : Bool
  rows : List (List CellContent)

/-- The `+`/`-`/`=` divider piece emitted below/above a cell
(`Table.row_divider`). -/
def Table.row_divider (column : Nat) (width : Nat) (header : Bool) : Str :=
  (if column = 0 then ['+'] else [])
    ++ List.replicate width (if header then '=' else '-') ++ ['+']

/-! ### The defaultdict model -/

/-- Association-list model of `defaultdict(lambda: 0)`: lookup of a missing
key yields 0; the key set is the set of keys ever assigned. -/
abbrev NatDict := List (Nat × Nat)

def dget : NatDict → Nat → Nat
  | [], _ => 0
  | (k', v') :: rest, k => if k' = k then v' else dget rest k

def dset : NatDict → Nat → Nat → NatDict
  | [], k, v => [(k, v)]
  | (k', v') :: rest, k, v =>
    if k' = k then (k, v) :: rest else (k', v') :: dset rest k v

/-- `max(d.keys())` — `none` models Python's `ValueError` on an empty dict. -/
def maxKey : NatDict → Option Nat
  | [] => none
  | (k, _) :: rest =>
    match maxKey rest with
    | none => some k
    | some m => some (max k m)

/-- The seeding loop `for idx, width in enumerate(self.column_widths):
column_widths[idx] = width`, keys `n, n+1, ...`. -/
def seedFrom (n : Nat) : List Nat → NatDict
  | [] => []
  | w :: ws => (n, w) :: seedFrom (n + 1) ws

def seedDict (ws : List Nat) : NatDict := seedFrom 0 ws

/-- The key list of a dictionary. -/
def dkeys (d : NatDict) : List Nat := d.map Prod.fst

/-! ### The treeify walk -/

/-- A positioned cell without its children: what the deferred-span lists and
the sizing dictionaries see of a `TreeCell`. -/
structure PCell where
  content : CellContent
  row : Nat
  column : Nat
deriving DecidableEq, Repr

/-- A stack entry of the iterative depth-first walk: a `TreeCell` whose
children list is still being built (in reverse order). -/
structure Frame where
  content : CellContent
  row : Nat
  column : Nat
  childrenRev : List TreeCell

def framePC (f : Frame) : PCell := ⟨f.content, f.row, f.column⟩

/-- Mutable state of `treeify`'s walk (everything but the stack). -/
structure WState where
  header_row : Option Nat
  row_heights : NatDict
  column_widths : NatDict
  in_column_indexes : List Nat
  in_columns : List Nat
  rowspans : List PCell
  colspans : List PCell

/-- Header-row tracking performed on pop (lines 137–139 of `table.py`). -/
def hdrStep (h : Option Nat) (pc : PCell) : Option Nat :=
  if pc.content.header then
    match h with
    | none => some pc.row
    | some x => if pc.row > x then some pc.row else some x
  else h

/-- Row-height fold performed on pop (lines 149–153). -/
def hStep (d : NatDict) (pc : PCell) : NatDict :=
  if pc.content.morerows = 0 then
    dset d pc.row (max (dget d pc.row) pc.content.content_height)
  else d

/-- Column-width fold performed on pop (lines 141–145). -/
def wStep (d : NatDict) (pc : PCell) : NatDict :=
  if pc.content.morecols = 0 then
    dset d pc.column (max (dget d pc.column) pc.content.content_width)
  else d

/-- Deferral of a row-spanning cell (line 155). -/
def rsStep (l : List PCell) (pc : PCell) : List PCell :=
  if pc.content.morerows = 0 then l else l ++ [pc]

/-- Deferral of a column-spanning cell (line 147). -/
def csStep (l : List PCell) (pc : PCell) : List PCell :=
  if pc.content.morecols = 0 then l else l ++ [pc]

/-- The loop `for row_idx in range(i, i+n): assert in_columns[row_idx] <= v;
in_columns[row_idx] = v` — `none` on an out-of-range index (`IndexError`) or
a failing assert (`AssertionError`). -/
def setRangeChecked (v : Nat) : List Nat → Nat → Nat → Option (List Nat)
  | l, _, 0 => some l
  | l, i, n + 1 =>
    match l.get? i with
    | none => none
    | some x =>
      if x ≤ v then setRangeChecked v (l.set i v) (i + 1) n else none

/-- The guard `end_row < len(in_columns) and in_columns[end_row] <
end_column` (lines 114–117). -/
def pushCond (st : WState) (f : Frame) : Bool :=
  let ec := f.column + f.content.morecols + 1
  let er := f.row + f.content.morerows + 1
  match st.in_columns.get? er with
  | none => false
  | some v => v < ec

/-- Construction of a child frame (lines 119–126); `none` models the
`IndexError` when a row's sparse cell list is exhausted. -/
def doPush (t : Table) (st : WState) (f : Frame) : Option Frame :=
  match (t.rows.getD (f.row + f.content.morerows + 1) []).get?
      (st.in_column_indexes.getD (f.row + f.content.morerows + 1) 0) with
  | none => none
  | some c =>
    some ⟨c, f.row + f.content.morerows + 1,
      st.in_columns.getD (f.row + f.content.morerows + 1) 0, []⟩

/-- State update on pop (lines 129–155 minus the tree mutation). -/
def popUpd (st : WState) (f : Frame) : Option WState :=
  match setRangeChecked (f.column + f.content.morecols + 1) st.in_columns
      f.row (f.content.morerows + 1) with
  | none => none
  | some ic =>
    some { header_row := hdrStep st.header_row (framePC f)
           row_heights := hStep st.row_heights (framePC f)
           column_widths := wStep st.column_widths (framePC f)
           in_column_indexes :=
             st.in_column_indexes.set f.row
               (st.in_column_indexes.getD f.row 0 + 1)
           in_columns := ic
           rowspans := rsStep st.rowspans (framePC f)
           colspans := csStep st.colspans (framePC f) }

/-- The `while stack:` loop (lines 108–155), fueled; returns the completed
root `TreeCell` and the updated state. -/
def walkLoop (t : Table) : Nat → List Frame → WState →
    Option (TreeCell × WState)
  | 0, _, _ => none
  | _ + 1, [], _ => none
  | fuel + 1, f :: rest, st =>
    if pushCond st f then
      match doPush t st f with
      | none => none
      | some child => walkLoop t fuel (child :: f :: rest) st
    else
      match popUpd st f with
      | none => none
      | some st' =>
        let node := TreeCell.mk f.content f.row f.column f.childrenRev.reverse
        match rest with
        | [] => some (node, st')
        | p :: rest' =>
          walkLoop t fuel
            ({ p with childrenRev := node :: p.childrenRev } :: rest') st'

/-- Fuel bound: the walk performs at most one push and one pop per cell of
the table per root. -/
def walkFuel (t : Table) : Nat :=
  2 * (t.rows.map List.length).sum + 2

/-- The outer loop `for cell in self.rows[0]:` (lines 102–106). -/
def walkRoots (t : Table) : List CellContent → WState →
    Option (List TreeCell × WState)
  | [], st => some ([], st)
  | c :: cs, st =>
    match st.in_columns.get? 0 with
    | none => none
    | some col0 =>
      match walkLoop t (walkFuel t) [⟨c, 0, col0, []⟩] st with
      | none => none
      | some (root, st') =>
        match walkRoots t cs st' with
        | none => none
        | some (roots, st'') => some (root :: roots, st'')

/-! ### The span expansion passes -/

/-- One iteration of the rowspan expansion loop (lines 167–176); `none`
models the `IndexError` when the origin row is out of range. -/
def expandRowStep (hs : List Nat) (pc : PCell) : Option (List Nat) :=
  match hs.get? pc.row with
  | none => none
  | some h0 =>
    let er := pc.row + pc.content.morerows + 1
    let slice := (hs.drop (pc.row + 1)).take (er - (pc.row + 1))
    let cumulative := slice.foldl (fun acc h => acc + h + 1) h0
    if cumulative < pc.content.content_height then
      some (hs.set pc.row (h0 + (pc.content.content_height - cumulative)))
    else some hs

def expandRows : List PCell → List Nat → Option (List Nat)
  | [], hs => some hs
  | pc :: pcs, hs =>
    match expandRowStep hs pc with
    | none => none
    | some hs' => expandRows pcs hs'

/-- One iteration of the colspan expansion loop (lines 178–187). -/
def expandColStep (ws : List Nat) (pc : PCell) : Option (List Nat) :=
  match ws.get? pc.column with
  | none => none
  | some w0 =>
    let ec := pc.column + pc.content.morecols + 1
    let slice := (ws.drop (pc.column + 1)).take (ec - (pc.column + 1))
    let cumulative := slice.foldl (fun acc w => acc + w + 1) w0
    if cumulative < pc.content.content_width then
      some (ws.set pc.column (w0 + (pc.content.content_width - cumulative)))
    else some ws

def expandCols : List PCell → List Nat → Option (List Nat)
  | [], ws => some ws
  | pc :: pcs, ws =>
    match expandColStep ws pc with
    | none => none
    | some ws' => expandCols pcs ws'

/-- `Table.treeify` (lines 78–194). `none` models an uncaught exception. -/
def Table.treeify (t : Table) : Option TreeTable :=
  match t.rows with
  | [] => some ⟨none, [], [], []⟩
  | r0 :: _ =>
    let st0 : WState :=
      { header_row := none
        row_heights := []
        column_widths := seedDict t.column_widths
        in_column_indexes := t.rows.map fun _ => 0
        in_columns := t.rows.map fun _ => 0
        rowspans := []
        colspans := [] }
    match walkRoots t r0 st0 with
    | none => none
    | some (top, st) =>
      match maxKey st.row_heights with
      | none => none
      | some mr =>
        match maxKey st.column_widths with
        | none => none
        | some mc =>
          let rh := (List.range (mr + 1)).map (dget st.row_heights)
          let cw := (List.range (mc + 1)).map (dget st.column_widths)
          match expandRows st.rowspans rh with
          | none => none
          | some rh' =>
            match expandCols st.colspans cw with
            | none => none
            | some cw' => some ⟨st.header_row, rh', cw', top⟩

/-! ### The renderer -/

mutual
/-- Pre-order flattening of a resolved cell: the order in which the
stack-based render loop (lines 202–207) visits cells. -/
def preorderCell : TreeCell → List PCell
  | .mk c r col ch => ⟨c, r, col⟩ :: preorderForest ch

def preorderForest : List TreeCell → List PCell
  | [] => []
  | tc :: tcs => preorderCell tc ++ preorderForest tcs
end

/-- All cells of a resolved table, in render (pre-order) order. -/
def TreeTable.cells (tt : TreeTable) : List PCell :=
  preorderForest tt.top_row

/-- The completed cells carried inside a walk stack: for each frame, the
cells of the finished subtrees hanging off its children list. -/
def framesCells : List Frame → List PCell
  | [] => []
  | f :: rest => preorderForest f.childrenRev ++ framesCells rest

/-- Rendered width of a cell, spanned dividers included (lines 211–216). -/
def cellWidth (tree : TreeTable) (pc : PCell) : Nat :=
  pc.content.morecols
    + ((tree.column_widths.drop pc.column).take (pc.content.morecols + 1)).sum

/-- Rendered height of a cell, spanned dividers included (lines 218–221). -/
def cellHeight (tree : TreeTable) (pc : PCell) : Nat :=
  pc.content.morerows
    + ((tree.row_heights.drop pc.row).take (pc.content.morerows + 1)).sum

/-- Index of a cell's first content line (lines 223–224). -/
def cellOffset (tree : TreeTable) (pc : PCell) : Nat :=
  1 + pc.row + (tree.row_heights.take pc.row).sum

/-- `str.ljust`: pad on the right with spaces, never truncate. -/
def ljust (s : Str) (w : Nat) : Str :=
  s ++ List.replicate (w - s.length) ' '

/-- `bufs[i].extend(s)` with an `IndexError` when `i` is out of range. -/
def extendAt (bufs : List Str) (i : Nat) (s : Str) : Option (List Str) :=
  match bufs.get? i with
  | none => none
  | some b => some (bufs.set i (b ++ s))

/-- The content-line loop `for idx in range(height):` (lines 232–239). -/
def writeCellLines (cell : CellContent) (pre : Str) (width : Nat) :
    List Str → Nat → Nat → Nat → Option (List Str)
  | bufs, _, _, 0 => some bufs
  | bufs, base, i, n + 1 =>
    match extendAt bufs (base + i)
        (pre ++ (ljust (cell.lines.getD i []) width ++ ['|'])) with
    | none => none
    | some bufs' => writeCellLines cell pre width bufs' base (i + 1) n

/-- `lines[i][left - 1] = "+"` with Python index semantics: `left = 0`
wraps to the last element; out of range is an `IndexError` (line 255). -/
def pySetCharAt (bufs : List Str) (i : Nat) (left : Nat) (ch : Char) :
    Option (List Str) :=
  match bufs.get? i with
  | none => none
  | some b =>
    if left = 0 then
      if b.isEmpty then none else some (bufs.set i (b.set (b.length - 1) ch))
    else
      if left - 1 < b.length then some (bufs.set i (b.set (left - 1) ch))
      else none

/-- The body of the render loop for one visited cell (lines 206–255).
`prevIdx` is the value of the Python loop variable `idx` left over from the
previous iteration; reading it while it is still `none` models the
`UnboundLocalError` raised when `height` is 0 for the first visited cell. -/
def renderCell (tree : TreeTable) (bufs : List Str) (prevIdx : Option Nat)
    (pc : PCell) : Option (List Str × Option Nat) :=
  match bufs.get? (cellOffset tree pc) with
  | none => none
  | some bOff =>
    match writeCellLines pc.content
        (if pc.column = 0 then ['|'] else []) (cellWidth tree pc)
        bufs (cellOffset tree pc) 0 (cellHeight tree pc) with
    | none => none
    | some bufs1 =>
      match
        (if pc.row = 0 then
          extendAt bufs1 0
            (Table.row_divider pc.column (cellWidth tree pc) false)
        else some bufs1) with
      | none => none
      | some bufs2 =>
        match
          (if 0 < cellHeight tree pc then some (cellHeight tree pc - 1)
          else prevIdx) with
        | none => none
        | some idx =>
          match
            extendAt bufs2 (cellOffset tree pc + idx + 1)
              (Table.row_divider pc.column (cellWidth tree pc)
                (tree.header_row == some pc.row)) with
          | none => none
          | some bufs3 =>
            match pySetCharAt bufs3 (cellOffset tree pc - 1)
                bOff.length '+' with
            | none => none
            | some bufs4 => some (bufs4, some idx)

def renderCells (tree : TreeTable) :
    List Str → Option Nat → List PCell → Option (List Str × Option Nat)
  | bufs, prev, [] => some (bufs, prev)
  | bufs, prev, pc :: pcs =>
    match renderCell tree bufs prev pc with
    | none => none
    | some (bufs', prev') => renderCells tree bufs' prev' pcs

/-- `Table.render` (lines 196–257). `none` models an uncaught exception. -/
def Table.render (t : Table) : Option (List Str) :=
  match t.treeify with
  | none => none
  | some tree =>
    match renderCells tree
        (List.replicate (tree.row_heights.sum + tree.row_heights.length + 1)
          ([] : Str)) none tree.cells with
    | none => none
    | some (bufs, _) => some bufs

/-! ### The coverage invariant -/

/-- Occupancy lookup in a dense boolean grid. -/
def gridGet (g : List (List Bool)) (r c : Nat) : Bool :=
  (g.getD r []).getD c false

def gridSet (g : List (List Bool)) (r c : Nat) : List (List Bool) :=
  g.set r ((g.getD r []).set c true)

/-- The (row, column) pairs of a span footprint. -/
def spanFootprint (r c mr mc : Nat) : List (Nat × Nat) :=
  (List.range (mr + 1)).foldr
    (fun i acc => ((List.range (mc + 1)).map fun j => (r + i, c + j)) ++ acc)
    []

/-- Modelled from the spec: place one cell at the leftmost free column of
its origin row, requiring its whole footprint to be inside the grid and
unoccupied (§3 "exactly one cell covers (r, c); no gaps, no overlaps",
§9 "explicit dense occupancy grid"). -/
def placeCell (nrows ncols : Nat) (g : List (List Bool)) (r : Nat)
    (cell : CellContent) : Option (List (List Bool)) :=
  match (List.range ncols).find? (fun c => !gridGet g r c) with
  | none => none
  | some c =>
    let fp := spanFootprint r c cell.morerows cell.morecols
    if r + cell.morerows < nrows ∧ c + cell.morecols < ncols
        ∧ fp.all (fun p => !gridGet g p.1 p.2) then
      some (fp.foldl (fun g' p => gridSet g' p.1 p.2) g)
    else none

def placeRow (nrows ncols : Nat) (r : Nat) :
    List (List Bool) → List CellContent → Option (List (List Bool))
  | g, [] => some g
  | g, cell :: cells =>
    match placeCell nrows ncols g r cell with
    | none => none
    | some g' => placeRow nrows ncols r g' cells

def placeRows (nrows ncols : Nat) :
    List (List Bool) → Nat → List (List CellContent) →
      Option (List (List Bool))
  | g, _, [] => some g
  | g, r, row :: rest =>
    match placeRow nrows ncols r g row with
    | none => none
    | some g' => placeRows nrows ncols g' (r + 1) rest

/-- Modelled from the spec: the coverage invariant of §3 — every (row,
column) position inside the declared grid is covered by exactly one cell's
span footprint.  The source has no explicit definition of this predicate;
it is stated here as the dense-occupancy placement of §9. -/
def coverageInvariant (t : Table) : Bool :=
  let nrows := t.rows.length
  let ncols := t.column_widths.length
  let g0 : List (List Bool) :=
    t.rows.map fun _ => t.column_widths.map fun _ => false
  match placeRows nrows ncols g0 0 t.rows with
  | none => false
  | some g =>
    (List.range nrows).all fun r =>
      (List.range ncols).all fun c => gridGet g r c

/-! ### Concrete tables used as witnesses and counterexamples -/

/-- A cell with no content lines and no span. -/
def emptyCell : CellContent := ⟨[], false, 0, 0⟩

/-- One row of two zero-line cells: every cell is covered, yet the first
rendered cell has height 0. -/
def tblC1 : Table := ⟨[1, 2], false, [[emptyCell, emptyCell]]⟩

/-- A single zero-line cell. -/
def tblC3 : Table := ⟨[1], false, [[emptyCell]]⟩

/-- A single zero-line cell in a column of declared width 2. -/
def tblC7 : Table := ⟨[2], false, [[emptyCell]]⟩

/-- Non-empty `rows` whose only row has no cells, with no declared
columns. -/
def tblC10 : Table := ⟨[], false, [[]]⟩

/-- A cell of four lines spanning two rows, positioned at the origin; used
to exercise the rowspan expansion step. -/
def pcRow5 : PCell := ⟨⟨[['x'], ['x'], ['x'], ['x']], false, 0, 1⟩, 0, 0⟩

/-- A cell of one nine-character line spanning two columns, positioned at
the origin; used to exercise the colspan expansion step. -/
def pcCol5 : PCell :=
  ⟨⟨[['a', 'a', 'a', 'a', 'a', 'a', 'a', 'a', 'a']], false, 1, 0⟩, 0, 0⟩

/-- A table with a two-row rowspan and two two-column colspans; exercises
both deferral lists of `treeify`. -/
def tblWitSpan : Table :=
  ⟨[2, 2, 2], false,
   [[⟨[['a', 'a'], ['b', 'b'], ['c', 'c']], false, 0, 1⟩,
     ⟨[['d', 'd', 'd', 'd', 'd', 'd', 'd']], false, 1, 0⟩],
    [⟨[['e']], false, 1, 0⟩]]⟩

/-- A 2×2 table whose first row is a header band. -/
def tblWitHdr : Table :=
  ⟨[3, 3], false,
   [[⟨[['h', '1']], true, 0, 0⟩, ⟨[['h', '2']], true, 0, 0⟩],
    [⟨[['a']], false, 0, 0⟩, ⟨[['b']], false, 0, 0⟩]]⟩

/-- A table with one row and a declared column: the empty-rows shortcut of
`treeify` discards its declared width. -/
def tblC4empty : Table := ⟨[5], false, []⟩

/-- The C2 property: every cell the resolver deferred as a span fits in
the space its resolved footprint provides (spanned sizes plus one divider
per internal boundary, which the renderer gives a spanning cell). -/
def SpanSufficiency (tree : TreeTable) : Prop :=
  ∀ pc ∈ tree.cells,
    (pc.content.morecols ≠ 0 →
      pc.content.content_width
        ≤ ((tree.column_widths.drop pc.column).take
            (pc.content.morecols + 1)).sum + pc.content.morecols)
    ∧ (pc.content.morerows ≠ 0 →
      pc.content.content_height
        ≤ ((tree.row_heights.drop pc.row).take
            (pc.content.morerows + 1)).sum + pc.content.morerows)

/-- The C4 property (for the amended claim): resolved widths dominate the
declared widths index by index, row heights are non-negative, and the
resolved height of a row contains every non-spanning cell whose origin is
that row. -/
def WidthMonotonicity (t : Table) (tree : TreeTable) : Prop :=
  t.column_widths.length ≤ tree.column_widths.length
  ∧ (∀ i, i < t.column_widths.length →
      t.column_widths.getD i 0 ≤ tree.column_widths.getD i 0)
  ∧ (∀ j, 0 ≤ tree.row_heights.getD j 0)
  ∧ ∀ pc ∈ tree.cells, pc.content.morerows = 0 →
      pc.row < tree.row_heights.length
      ∧ pc.content.content_height ≤ tree.row_heights.getD pc.row 0

/-- The C6 property: with no spans anywhere, each resolved column width is
exactly the max of the declared width and the widest cell content of that
column. -/
def NoSpanExactWidths (t : Table) (tree : TreeTable) : Prop :=
  ∀ i, i < tree.column_widths.length →
    tree.column_widths.getD i 0
      = max (t.column_widths.getD i 0)
          (tree.cells.foldl
            (fun a pc =>
              if pc.column = i then max a pc.content.content_width else a) 0)

/-- The C9 property: `header_row` is the deepest row holding a header
cell (or absent), and the divider the renderer emits below a cell is the
`row_divider` whose fill is `=` exactly when the cell's origin row equals
`header_row`. -/
def HeaderRowDividers (tree : TreeTable) : Prop :=
  (tree.header_row = none ↔ ∀ pc ∈ tree.cells, pc.content.header = false)
  ∧ (∀ hr, tree.header_row = some hr →
      (∃ pc ∈ tree.cells, pc.content.header = true ∧ pc.row = hr)
      ∧ ∀ pc ∈ tree.cells, pc.content.header = true → pc.row ≤ hr)
  ∧ (∀ (bufs : List Str) (prev : Option Nat) (pc : PCell)
      (out : List Str × Option Nat),
      renderCell tree bufs prev pc = some out →
      0 < cellHeight tree pc →
      out.1.get? (cellOffset tree pc + cellHeight tree pc)
        = (bufs.get? (cellOffset tree pc + cellHeight tree pc)).map
            (· ++ Table.row_divider pc.column (cellWidth tree pc)
              (tree.header_row == some pc.row)))
  ∧ (∀ col w hdr ch, ch ∈ Table.row_divider col w hdr →
      ch = '+' ∨ ch = (if hdr then '=' else '-'))
  ∧ (∀ col w, 0 < w →
      ('=' ∈ Table.row_divider col w true
        ∧ '=' ∉ Table.row_divider col w false))

/-! ### Space covered by a span, in the spec's terms -/

/-- The space already covered by a row-spanning cell's spanned rows, plus
one divider line per internal row boundary that exists in the height
list. -/
def coveredHeight (hs : List Nat) (pc : PCell) : Nat :=
  ((hs.drop pc.row).take (pc.content.morerows + 1)).sum
    + min pc.content.morerows (hs.length - (pc.row + 1))

/-- The space already covered by a column-spanning cell's spanned columns,
plus one divider column per internal column boundary that exists in the
width list. -/
def coveredWidth (ws : List Nat) (pc : PCell) : Nat :=
  ((ws.drop pc.column).take (pc.content.morecols + 1)).sum
    + min pc.content.morecols (ws.length - (pc.column + 1))

/-! ### Helper lemmas -/

theorem foldl_divider_acc (l : List Nat) (a : Nat) :
    l.foldl (fun acc h => acc + h + 1) a = a + l.sum + l.length := by
  induction l generalizing a with
  | nil => simp
  | cons x xs ih => simp [ih]; ring

theorem drop_take_sum_of_get? {l : List Nat} {r x : Nat} (m : Nat)
    (h : l.get? r = some x) :
    ((l.drop r).take (m + 1)).sum = x + ((l.drop (r + 1)).take m).sum := by
  have hr : r < l.length := by
    by_contra hlt
    rw [List.get?_eq_getElem?, List.getElem?_eq_none (by omega)] at h
    exact Option.noConfusion h
  have hx : l[r] = x := by
    rw [List.get?_eq_getElem?, List.getElem?_eq_getElem hr] at h
    exact Option.some.inj h
  rw [List.drop_eq_getElem_cons hr, hx]
  simp

/-- `expandRowStep` in closed form: nothing changes when the cell fits,
otherwise exactly the shortfall is added to the origin row. -/
theorem expandRowStep_spec {hs out : List Nat} {pc : PCell}
    (h : expandRowStep hs pc = some out) :
    (pc.content.content_height ≤ coveredHeight hs pc → out = hs)
    ∧ (coveredHeight hs pc < pc.content.content_height →
        out = hs.set pc.row (hs.getD pc.row 0
          + (pc.content.content_height - coveredHeight hs pc))) := by
  unfold expandRowStep at h
  cases hg : hs.get? pc.row with
  | none => rw [hg] at h; exact Option.noConfusion h
  | some h0 =>
    rw [hg] at h
    simp only at h
    have harith : pc.row + pc.content.morerows + 1 - (pc.row + 1)
        = pc.content.morerows := by omega
    have hcum : ((hs.drop (pc.row + 1)).take
          (pc.row + pc.content.morerows + 1 - (pc.row + 1))).foldl
          (fun acc h => acc + h + 1) h0 = coveredHeight hs pc := by
      rw [harith, foldl_divider_acc, coveredHeight,
        drop_take_sum_of_get? pc.content.morerows hg]
      rw [List.length_take, List.length_drop]
    rw [hcum] at h
    have hget : hs.getD pc.row 0 = h0 := by
      rw [List.getD_eq_getElem?_getD, ← List.get?_eq_getElem?, hg]
      rfl
    constructor
    · intro hle
      rw [if_neg (by omega)] at h
      exact (Option.some.inj h).symm
    · intro hlt
      rw [if_pos hlt] at h
      rw [← Option.some.inj h, hget]

/-- `expandColStep` in closed form. -/
theorem expandColStep_spec {ws out : List Nat} {pc : PCell}
    (h : expandColStep ws pc = some out) :
    (pc.content.content_width ≤ coveredWidth ws pc → out = ws)
    ∧ (coveredWidth ws pc < pc.content.content_width →
        out = ws.set pc.column (ws.getD pc.column 0
          + (pc.content.content_width - coveredWidth ws pc))) := by
  unfold expandColStep at h
  cases hg : ws.get? pc.column with
  | none => rw [hg] at h; exact Option.noConfusion h
  | some w0 =>
    rw [hg] at h
    simp only at h
    have harith : pc.column + pc.content.morecols + 1 - (pc.column + 1)
        = pc.content.morecols := by omega
    have hcum : ((ws.drop (pc.column + 1)).take
          (pc.column + pc.content.morecols + 1 - (pc.column + 1))).foldl
          (fun acc w => acc + w + 1) w0 = coveredWidth ws pc := by
      rw [harith, foldl_divider_acc, coveredWidth,
        drop_take_sum_of_get? pc.content.morecols hg]
      rw [List.length_take, List.length_drop]
    rw [hcum] at h
    have hget : ws.getD pc.column 0 = w0 := by
      rw [List.getD_eq_getElem?_getD, ← List.get?_eq_getElem?, hg]
      rfl
    constructor
    · intro hle
      rw [if_neg (by omega)] at h
      exact (Option.some.inj h).symm
    · intro hlt
      rw [if_pos hlt] at h
      rw [← Option.some.inj h, hget]

/-! ### Dictionary lemmas -/

theorem dget_dset_self (d : NatDict) (k v : Nat) :
    dget (dset d k v) k = v := by
  induction d with
  | nil => simp [dset, dget]
  | cons e rest ih =>
    obtain ⟨k', v'⟩ := e
    by_cases hk : k' = k
    · simp [dset, hk, dget]
    · simp [dset, hk, dget, ih]

theorem dget_dset_ne (d : NatDict) {k k' : Nat} (v : Nat) (h : k' ≠ k) :
    dget (dset d k v) k' = dget d k' := by
  induction d with
  | nil =>
    simp only [dset, dget]
    rw [if_neg (fun e => h e.symm)]
  | cons e rest ih =>
    obtain ⟨k'', v''⟩ := e
    by_cases hk : k'' = k
    · subst hk
      simp only [dset, if_pos rfl, dget]
      rw [if_neg (fun e => h e.symm), if_neg (fun e => h e.symm)]
    · simp only [dset, if_neg hk, dget]
      by_cases hk2 : k'' = k'
      · rw [if_pos hk2, if_pos hk2]
      · rw [if_neg hk2, if_neg hk2, ih]


theorem mem_dkeys_dset_self (d : NatDict) (k v : Nat) :
    k ∈ dkeys (dset d k v) := by
  induction d with
  | nil => simp [dset, dkeys]
  | cons e rest ih =>
    obtain ⟨k', v'⟩ := e
    by_cases hk : k' = k
    · simp [dset, hk, dkeys]
    · simp only [dset, if_neg hk, dkeys, List.map_cons, List.mem_cons]
      exact Or.inr ih

theorem mem_dkeys_dset (d : NatDict) {k'} (k v : Nat)
    (h : k' ∈ dkeys d) : k' ∈ dkeys (dset d k v) := by
  induction d with
  | nil => simp [dkeys] at h
  | cons e rest ih =>
    obtain ⟨k'', v''⟩ := e
    by_cases hk : k'' = k
    · have hd : dset ((k'', v'') :: rest) k v = (k, v) :: rest := by
        simp [dset, hk]
      rw [hd]
      have h2 : k' = k'' ∨ k' ∈ dkeys rest := by simpa [dkeys] using h
      simp only [dkeys, List.map_cons, List.mem_cons]
      rcases h2 with h2 | h2
      · exact Or.inl (h2.trans hk)
      · exact Or.inr h2
    · simp only [dkeys, List.map_cons, List.mem_cons] at h
      simp only [dset, if_neg hk, dkeys, List.map_cons, List.mem_cons]
      rcases h with h | h
      · exact Or.inl h
      · exact Or.inr (ih h)

theorem maxKey_ge_of_mem {d : NatDict} {k : Nat} (h : k ∈ dkeys d) :
    ∃ m, maxKey d = some m ∧ k ≤ m := by
  induction d with
  | nil => simp [dkeys] at h
  | cons e rest ih =>
    obtain ⟨k', v'⟩ := e
    simp only [dkeys, List.map_cons, List.mem_cons] at h
    cases hm : maxKey rest with
    | none =>
      refine ⟨k', by simp [maxKey, hm], ?_⟩
      rcases h with rfl | h
      · exact le_refl _
      · obtain ⟨m, hm2, _⟩ := ih h
        rw [hm2] at hm
        exact Option.noConfusion hm
    | some m =>
      refine ⟨max k' m, by simp [maxKey, hm], ?_⟩
      rcases h with rfl | h
      · exact le_max_left _ _
      · obtain ⟨m2, hm2, hle⟩ := ih h
        have hmeq : m2 = m := by
          rw [hm2] at hm
          exact Option.some.inj hm
        subst hmeq
        exact le_trans hle (le_max_right _ _)

theorem maxKey_le {d : NatDict} :
    ∀ {m : Nat}, maxKey d = some m → ∀ k ∈ dkeys d, k ≤ m := by
  induction d with
  | nil => intro m h; simp [maxKey] at h
  | cons e rest ih =>
    obtain ⟨k', v'⟩ := e
    intro m h k hk
    simp only [dkeys, List.map_cons, List.mem_cons] at hk
    cases hm : maxKey rest with
    | none =>
      rw [maxKey, hm] at h
      have hk'm : k' = m := Option.some.inj h
      rcases hk with rfl | hk
      · omega
      · obtain ⟨m2, hm2, _⟩ := maxKey_ge_of_mem hk
        rw [hm2] at hm
        exact Option.noConfusion hm
    | some m2 =>
      rw [maxKey, hm] at h
      have hmax : max k' m2 = m := Option.some.inj h
      rcases hk with rfl | hk
      · omega
      · have hle := ih hm k hk
        omega

theorem dget_seedFrom (n : Nat) (ws : List Nat) (k : Nat) :
    dget (seedFrom n ws) k
      = if n ≤ k ∧ k < n + ws.length then ws.getD (k - n) 0 else 0 := by
  induction ws generalizing n with
  | nil => simp [seedFrom, dget]
  | cons w rest ih =>
    simp only [seedFrom, dget]
    by_cases hk : n = k
    · subst hk
      simp [List.getD]
    · rw [if_neg hk, ih (n + 1)]
      by_cases hin : n + 1 ≤ k ∧ k < n + 1 + rest.length
      · rw [if_pos hin, if_pos (by simp at hin ⊢; omega)]
        have : k - n = (k - (n + 1)) + 1 := by omega
        rw [this]
        simp [List.getD]
      · rw [if_neg hin, if_neg (by simp at hin ⊢; omega)]

theorem mem_dkeys_seedFrom {n k : Nat} {ws : List Nat}
    (h1 : n ≤ k) (h2 : k < n + ws.length) :
    k ∈ dkeys (seedFrom n ws) := by
  induction ws generalizing n with
  | nil => simp at h2; omega
  | cons w rest ih =>
    simp only [seedFrom, dkeys, List.map_cons, List.mem_cons]
    by_cases hk : n = k
    · exact Or.inl hk.symm
    · exact Or.inr (ih (by omega) (by simp at h2 ⊢; omega))

/-! ### Fold lemmas for the pop-time updates -/

theorem dget_foldl_wStep (P : List PCell) (d : NatDict) (k : Nat) :
    dget (P.foldl wStep d) k
      = P.foldl
          (fun a pc =>
            if pc.content.morecols = 0 ∧ pc.column = k then
              max a pc.content.content_width
            else a)
          (dget d k) := by
  induction P generalizing d with
  | nil => rfl
  | cons pc rest ih =>
    simp only [List.foldl_cons, ih]
    congr 1
    unfold wStep
    by_cases hmc : pc.content.morecols = 0
    · by_cases hcol : pc.column = k
      · subst hcol
        simp [hmc, dget_dset_self]
      · rw [if_pos hmc, if_neg (fun hc => hcol hc.2)]
        exact dget_dset_ne d _ (fun e => hcol e.symm)
    · rw [if_neg hmc, if_neg (fun hc => hmc hc.1)]

theorem dget_foldl_hStep (P : List PCell) (d : NatDict) (k : Nat) :
    dget (P.foldl hStep d) k
      = P.foldl
          (fun a pc =>
            if pc.content.morerows = 0 ∧ pc.row = k then
              max a pc.content.content_height
            else a)
          (dget d k) := by
  induction P generalizing d with
  | nil => rfl
  | cons pc rest ih =>
    simp only [List.foldl_cons, ih]
    congr 1
    unfold hStep
    by_cases hmr : pc.content.morerows = 0
    · by_cases hrow : pc.row = k
      · subst hrow
        simp [hmr, dget_dset_self]
      · rw [if_pos hmr, if_neg (fun hc => hrow hc.2)]
        exact dget_dset_ne d _ (fun e => hrow e.symm)
    · rw [if_neg hmr, if_neg (fun hc => hmr hc.1)]

theorem condMax_ge_init {α : Type} (q : α → Prop) [DecidablePred q]
    (g : α → Nat) (P : List α) (a : Nat) :
    a ≤ P.foldl (fun a c => if q c then max a (g c) else a) a := by
  induction P generalizing a with
  | nil => exact le_refl _
  | cons c rest ih =>
    simp only [List.foldl_cons]
    by_cases hq : q c
    · exact le_trans (le_max_left _ _) (by rw [if_pos hq]; exact ih _)
    · rw [if_neg hq]; exact ih _

theorem condMax_ge_mem {α : Type} (q : α → Prop) [DecidablePred q]
    (g : α → Nat) {P : List α} {c : α} (hc : c ∈ P) (hq : q c) (a : Nat) :
    g c ≤ P.foldl (fun a c => if q c then max a (g c) else a) a := by
  induction P generalizing a with
  | nil => simp at hc
  | cons c0 rest ih =>
    simp only [List.foldl_cons]
    rcases List.mem_cons.mp hc with hh | hh
    · subst hh
      rw [if_pos hq]
      exact le_trans (le_max_right _ _) (condMax_ge_init q g rest _)
    · exact ih hh _

theorem mem_dkeys_foldl_wStep (P : List PCell) (d : NatDict) {k : Nat}
    (h : k ∈ dkeys d) : k ∈ dkeys (P.foldl wStep d) := by
  induction P generalizing d with
  | nil => exact h
  | cons pc rest ih =>
    simp only [List.foldl_cons]
    refine ih _ ?_
    unfold wStep
    by_cases hmc : pc.content.morecols = 0
    · rw [if_pos hmc]; exact mem_dkeys_dset _ _ _ h
    · rw [if_neg hmc]; exact h

theorem mem_dkeys_foldl_hStep (P : List PCell) (d : NatDict) {k : Nat}
    (h : k ∈ dkeys d) : k ∈ dkeys (P.foldl hStep d) := by
  induction P generalizing d with
  | nil => exact h
  | cons pc rest ih =>
    simp only [List.foldl_cons]
    refine ih _ ?_
    unfold hStep
    by_cases hmr : pc.content.morerows = 0
    · rw [if_pos hmr]; exact mem_dkeys_dset _ _ _ h
    · rw [if_neg hmr]; exact h

theorem mem_dkeys_foldl_hStep_of_mem {P : List PCell} {pc : PCell}
    (hpc : pc ∈ P) (hmr : pc.content.morerows = 0) (d : NatDict) :
    pc.row ∈ dkeys (P.foldl hStep d) := by
  induction P generalizing d with
  | nil => simp at hpc
  | cons pc0 rest ih =>
    rcases List.mem_cons.mp hpc with hh | hh
    · subst hh
      simp only [List.foldl_cons]
      refine mem_dkeys_foldl_hStep rest _ ?_
      unfold hStep
      rw [if_pos hmr]
      exact mem_dkeys_dset_self _ _ _
    · exact ih hh _

theorem foldl_rsStep (P : List PCell) (l : List PCell) :
    P.foldl rsStep l = l ++ P.filter (fun pc => pc.content.morerows != 0) := by
  induction P generalizing l with
  | nil => simp
  | cons pc rest ih =>
    simp only [List.foldl_cons, List.filter_cons]
    by_cases hmr : pc.content.morerows = 0
    · have h1 : rsStep l pc = l := by simp [rsStep, hmr]
      rw [h1, ih]
      simp [hmr]
    · have h1 : rsStep l pc = l ++ [pc] := by simp [rsStep, hmr]
      rw [h1, ih, List.append_assoc]
      simp [hmr]

theorem foldl_csStep (P : List PCell) (l : List PCell) :
    P.foldl csStep l = l ++ P.filter (fun pc => pc.content.morecols != 0) := by
  induction P generalizing l with
  | nil => simp
  | cons pc rest ih =>
    simp only [List.foldl_cons, List.filter_cons]
    by_cases hmc : pc.content.morecols = 0
    · have h1 : csStep l pc = l := by simp [csStep, hmc]
      rw [h1, ih]
      simp [hmc]
    · have h1 : csStep l pc = l ++ [pc] := by simp [csStep, hmc]
      rw [h1, ih, List.append_assoc]
      simp [hmc]

/-! ### Header-row fold characterization -/

theorem foldl_hdrStep_none {P : List PCell} {h : Option Nat}
    (hres : P.foldl hdrStep h = none) :
    h = none ∧ ∀ pc ∈ P, pc.content.header = false := by
  induction P generalizing h with
  | nil => exact ⟨hres, by simp⟩
  | cons pc rest ih =>
    simp only [List.foldl_cons] at hres
    obtain ⟨h1, h2⟩ := ih hres
    have hhd : pc.content.header = false := by
      by_contra hh
      have hh' : pc.content.header = true := by
        cases hcc : pc.content.header
        · exact absurd hcc hh
        · rfl
      unfold hdrStep at h1
      rw [hh'] at h1
      revert h1
      cases h with
      | none => simp
      | some x => by_cases hgt : pc.row > x <;> simp [hgt]
    refine ⟨?_, fun q hq => ?_⟩
    · unfold hdrStep at h1
      rw [hhd] at h1
      simpa using h1
    · rcases List.mem_cons.mp hq with hh | hh
      · exact hh ▸ hhd
      · exact h2 q hh

theorem hdrStep_cases (h : Option Nat) (pc : PCell) :
    (pc.content.header = false ∧ hdrStep h pc = h)
    ∨ (pc.content.header = true ∧ hdrStep h pc = some pc.row
        ∧ ∀ x, h = some x → x ≤ pc.row)
    ∨ (pc.content.header = true ∧ hdrStep h pc = h
        ∧ ∃ x, h = some x ∧ pc.row ≤ x) := by
  unfold hdrStep
  by_cases hhd : pc.content.header = true
  · rw [if_pos hhd]
    cases h with
    | none => exact Or.inr (Or.inl ⟨hhd, rfl, by simp⟩)
    | some x =>
      by_cases hgt : pc.row > x
      · refine Or.inr (Or.inl ⟨hhd, by simp [hgt], fun y hy => ?_⟩)
        cases hy
        omega
      · exact Or.inr (Or.inr ⟨hhd, by simp [hgt], x, rfl, by omega⟩)
  · exact Or.inl ⟨by simpa using hhd, if_neg hhd⟩

theorem foldl_hdrStep_some {P : List PCell} {h : Option Nat} {m : Nat}
    (hres : P.foldl hdrStep h = some m) :
    (h = some m ∨ ∃ pc ∈ P, pc.content.header = true ∧ pc.row = m)
    ∧ (∀ pc ∈ P, pc.content.header = true → pc.row ≤ m)
    ∧ (∀ x, h = some x → x ≤ m) := by
  induction P generalizing h with
  | nil =>
    simp only [List.foldl_nil] at hres
    refine ⟨Or.inl hres, by simp, fun x hx => ?_⟩
    rw [hres] at hx
    exact le_of_eq (Option.some.inj hx).symm
  | cons pc rest ih =>
    simp only [List.foldl_cons] at hres
    rcases hdrStep_cases h pc with ⟨hf, hstep⟩ | ⟨ht, hstep, hbnd⟩
      | ⟨ht, hstep, x0, hx0, hle0⟩
    · rw [hstep] at hres
      obtain ⟨hcases, hbound, hinit⟩ := ih hres
      refine ⟨?_, fun q hq hqh => ?_, hinit⟩
      · rcases hcases with hc | hc
        · exact Or.inl hc
        · obtain ⟨q, hq, hq2, hq3⟩ := hc
          exact Or.inr ⟨q, List.mem_cons_of_mem _ hq, hq2, hq3⟩
      · rcases List.mem_cons.mp hq with hh | hh
        · rw [hh] at hqh
          rw [hqh] at hf
          exact absurd hf (by simp)
        · exact hbound q hh hqh
    · rw [hstep] at hres
      obtain ⟨hcases, hbound, hinit⟩ := ih hres
      have hrow_le : pc.row ≤ m := hinit pc.row rfl
      refine ⟨?_, fun q hq hqh => ?_, fun x hx => ?_⟩
      · rcases hcases with hc | hc
        · exact Or.inr ⟨pc, List.mem_cons_self _ _, ht,
            Option.some.inj hc⟩
        · obtain ⟨q, hq, hq2, hq3⟩ := hc
          exact Or.inr ⟨q, List.mem_cons_of_mem _ hq, hq2, hq3⟩
      · rcases List.mem_cons.mp hq with hh | hh
        · rw [hh]
          exact hrow_le
        · exact hbound q hh hqh
      · exact le_trans (hbnd x hx) hrow_le
    · rw [hstep] at hres
      obtain ⟨hcases, hbound, hinit⟩ := ih hres
      refine ⟨?_, fun q hq hqh => ?_, hinit⟩
      · rcases hcases with hc | hc
        · exact Or.inl hc
        · obtain ⟨q, hq, hq2, hq3⟩ := hc
          exact Or.inr ⟨q, List.mem_cons_of_mem _ hq, hq2, hq3⟩
      · rcases List.mem_cons.mp hq with hh | hh
        · rw [hh]
          exact le_trans hle0 (hinit x0 hx0)
        · exact hbound q hh hqh

/-! ### Pre-order flattening lemmas -/

theorem preorderCell_mk (c : CellContent) (r col : Nat)
    (ch : List TreeCell) :
    preorderCell (.mk c r col ch) = ⟨c, r, col⟩ :: preorderForest ch := by
  simp [preorderCell]

theorem preorderForest_nil : preorderForest [] = [] := by
  simp [preorderForest]

theorem preorderForest_cons (tc : TreeCell) (tcs : List TreeCell) :
    preorderForest (tc :: tcs) = preorderCell tc ++ preorderForest tcs := by
  simp [preorderForest]

theorem preorderForest_append (l l' : List TreeCell) :
    preorderForest (l ++ l') = preorderForest l ++ preorderForest l' := by
  induction l with
  | nil => simp [preorderForest_nil]
  | cons tc tcs ih =>
    simp [preorderForest_cons, ih, List.append_assoc]

theorem preorderForest_reverse_perm (l : List TreeCell) :
    (preorderForest l.reverse).Perm (preorderForest l) := by
  induction l with
  | nil => exact List.Perm.refl _
  | cons tc tcs ih =>
    rw [List.reverse_cons, preorderForest_append, preorderForest_cons,
      preorderForest_nil, List.append_nil, preorderForest_cons]
    exact List.Perm.trans List.perm_append_comm (List.Perm.append_left _ ih)

theorem perm_rearrange (x : PCell) (arev a b c p : List PCell)
    (hA : arev.Perm a) :
    (x :: (arev ++ (b ++ (c ++ p)))).Perm (a ++ (b ++ (c ++ (x :: p)))) := by
  refine (List.Perm.cons x (hA.append_right _)).trans ?_
  have h2 := (@List.perm_middle PCell x (a ++ (b ++ c)) p).symm
  simpa [List.append_assoc] using h2

/-! ### Walk-state lemmas -/

theorem setRangeChecked_length {v : Nat} :
    ∀ {n : Nat} {l : List Nat} {i : Nat} {l' : List Nat},
      setRangeChecked v l i n = some l' → l'.length = l.length := by
  intro n
  induction n with
  | zero =>
    intro l i l' h
    exact (Option.some.inj h) ▸ rfl
  | succ n ih =>
    intro l i l' h
    unfold setRangeChecked at h
    split at h
    · exact Option.noConfusion h
    · split at h
      · rw [ih h, List.length_set]
      · exact Option.noConfusion h

theorem popUpd_spec {st : WState} {f : Frame} {st' : WState}
    (h : popUpd st f = some st') :
    st'.header_row = hdrStep st.header_row (framePC f)
    ∧ st'.row_heights = hStep st.row_heights (framePC f)
    ∧ st'.column_widths = wStep st.column_widths (framePC f)
    ∧ st'.rowspans = rsStep st.rowspans (framePC f)
    ∧ st'.colspans = csStep st.colspans (framePC f)
    ∧ st'.in_columns.length = st.in_columns.length := by
  unfold popUpd at h
  cases hsr : setRangeChecked (f.column + f.content.morecols + 1)
      st.in_columns f.row (f.content.morerows + 1) with
  | none => rw [hsr] at h; exact Option.noConfusion h
  | some ic =>
    rw [hsr] at h
    cases Option.some.inj h
    exact ⟨rfl, rfl, rfl, rfl, rfl, setRangeChecked_length hsr⟩

theorem doPush_spec {t : Table} {st : WState} {f : Frame} {child : Frame}
    (h : doPush t st f = some child) :
    child.childrenRev = [] ∧ ∃ rw ∈ t.rows, child.content ∈ rw := by
  unfold doPush at h
  cases hg : (t.rows.getD (f.row + f.content.morerows + 1) []).get?
      (st.in_column_indexes.getD (f.row + f.content.morerows + 1) 0) with
  | none => rw [hg] at h; exact Option.noConfusion h
  | some c =>
    rw [hg] at h
    cases Option.some.inj h
    refine ⟨rfl, t.rows.getD (f.row + f.content.morerows + 1) [], ?_, ?_⟩
    · by_cases hlt : f.row + f.content.morerows + 1 < t.rows.length
      · rw [List.getD_eq_getElem?_getD, List.getElem?_eq_getElem hlt]
        exact List.getElem_mem hlt
      · exfalso
        rw [List.getD_eq_getElem?_getD, List.getElem?_eq_none (by omega)]
          at hg
        simp at hg
    · exact List.get?_mem hg

/-! ### The master walk lemma -/

theorem walkLoop_spec (t : Table) :
    ∀ (fuel : Nat) (stack : List Frame) (st : WState) (root : TreeCell)
      (st' : WState),
      walkLoop t fuel stack st = some (root, st') →
      ∃ P : List PCell,
        (preorderCell root).Perm (framesCells stack ++ P)
        ∧ st'.header_row = P.foldl hdrStep st.header_row
        ∧ st'.row_heights = P.foldl hStep st.row_heights
        ∧ st'.column_widths = P.foldl wStep st.column_widths
        ∧ st'.rowspans = P.foldl rsStep st.rowspans
        ∧ st'.colspans = P.foldl csStep st.colspans
        ∧ st'.in_columns.length = st.in_columns.length
        ∧ ∀ pc ∈ P, (∃ fr ∈ stack, framePC fr = pc)
            ∨ ∃ rw ∈ t.rows, pc.content ∈ rw := by
  intro fuel
  induction fuel with
  | zero =>
    intro stack st root st' h
    simp [walkLoop] at h
  | succ n ih =>
    intro stack st root st' h
    cases stack with
    | nil => simp [walkLoop] at h
    | cons f rest =>
      rw [walkLoop] at h
      by_cases hpc : pushCond st f
      · rw [if_pos hpc] at h
        cases hdp : doPush t st f with
        | none => rw [hdp] at h; exact Option.noConfusion h
        | some child =>
          rw [hdp] at h
          obtain ⟨P, hperm, h1, h2, h3, h4, h5, h6, hprov⟩ := ih _ _ _ _ h
          obtain ⟨hch, hmem⟩ := doPush_spec hdp
          refine ⟨P, ?_, h1, h2, h3, h4, h5, h6, ?_⟩
          · refine hperm.trans ?_
            rw [framesCells, hch, preorderForest_nil, List.nil_append]
          · intro pc hpcmem
            rcases hprov pc hpcmem with ⟨fr, hfr, hfr2⟩ | hr
            · rcases List.mem_cons.mp hfr with hh | hh
              · subst hh
                exact Or.inr (hfr2 ▸ hmem)
              · exact Or.inl ⟨fr, hh, hfr2⟩
            · exact Or.inr hr
      · rw [if_neg hpc] at h
        cases hpu : popUpd st f with
        | none => rw [hpu] at h; exact Option.noConfusion h
        | some st1 =>
          rw [hpu] at h
          obtain ⟨e1, e2, e3, e4, e5, e6⟩ := popUpd_spec hpu
          cases rest with
          | nil =>
            rw [Option.some.injEq, Prod.mk.injEq] at h
            obtain ⟨hroot, hst⟩ := h
            subst hroot
            subst hst
            refine ⟨[framePC f], ?_, by simp [e1], by simp [e2],
              by simp [e3], by simp [e4], by simp [e5], e6, ?_⟩
            · rw [preorderCell_mk, framesCells, framesCells,
                List.append_nil]
              refine List.Perm.trans ?_
                (List.perm_append_singleton (framePC f)
                  (preorderForest f.childrenRev)).symm
              exact List.Perm.cons _ (preorderForest_reverse_perm _)
            · intro pc hpcmem
              rcases List.mem_singleton.mp hpcmem with rfl
              exact Or.inl ⟨f, List.mem_singleton.mpr rfl, rfl⟩
          | cons p rest' =>
            obtain ⟨P', hperm, h1, h2, h3, h4, h5, h6, hprov⟩ :=
              ih _ _ _ _ h
            refine ⟨framePC f :: P', ?_, by simp [h1, e1],
              by simp [h2, e2], by simp [h3, e3], by simp [h4, e4],
              by simp [h5, e5], by rw [h6, e6], ?_⟩
            · refine hperm.trans ?_
              have hexp :
                  framesCells
                    ({ p with
                        childrenRev :=
                          TreeCell.mk f.content f.row f.column
                            f.childrenRev.reverse :: p.childrenRev }
                      :: rest') ++ P'
                  = framePC f
                      :: (preorderForest f.childrenRev.reverse
                        ++ (preorderForest p.childrenRev
                          ++ (framesCells rest' ++ P'))) := by
                rw [framesCells, preorderForest_cons, preorderCell_mk]
                simp [framePC, List.append_assoc]
              rw [hexp]
              have hgoal :
                  framesCells (f :: p :: rest') ++ (framePC f :: P')
                  = preorderForest f.childrenRev
                      ++ (preorderForest p.childrenRev
                        ++ (framesCells rest' ++ (framePC f :: P'))) := by
                rw [framesCells, framesCells]
                simp [List.append_assoc]
              rw [hgoal]
              exact perm_rearrange (framePC f)
                (preorderForest f.childrenRev.reverse)
                (preorderForest f.childrenRev)
                (preorderForest p.childrenRev)
                (framesCells rest') P'
                (preorderForest_reverse_perm _)
            · intro pc hpcmem
              rcases List.mem_cons.mp hpcmem with rfl | hh
              · exact Or.inl ⟨f, List.mem_cons_self _ _, rfl⟩
              · rcases hprov pc hh with ⟨fr, hfr, hfr2⟩ | hr
                · rcases List.mem_cons.mp hfr with hh2 | hh2
                  · subst hh2
                    exact Or.inl ⟨p, List.mem_cons_of_mem _
                      (List.mem_cons_self _ _), hfr2⟩
                  · exact Or.inl ⟨fr,
                      List.mem_cons_of_mem _ (List.mem_cons_of_mem _ hh2),
                      hfr2⟩
                · exact Or.inr hr

theorem walkRoots_spec (t : Table) :
    ∀ (cells : List CellContent) (st : WState) (roots : List TreeCell)
      (st' : WState),
      walkRoots t cells st = some (roots, st') →
      (∀ c ∈ cells, ∃ rw ∈ t.rows, c ∈ rw) →
      ∃ P : List PCell,
        (preorderForest roots).Perm P
        ∧ st'.header_row = P.foldl hdrStep st.header_row
        ∧ st'.row_heights = P.foldl hStep st.row_heights
        ∧ st'.column_widths = P.foldl wStep st.column_widths
        ∧ st'.rowspans = P.foldl rsStep st.rowspans
        ∧ st'.colspans = P.foldl csStep st.colspans
        ∧ ∀ pc ∈ P, ∃ rw ∈ t.rows, pc.content ∈ rw := by
  intro cells
  induction cells with
  | nil =>
    intro st roots st' h _
    unfold walkRoots at h
    rw [Option.some.injEq, Prod.mk.injEq] at h
    obtain ⟨h1, h2⟩ := h
    subst h1
    subst h2
    exact ⟨[], by rw [preorderForest_nil], rfl, rfl, rfl, rfl, rfl,
      by simp⟩
  | cons c cs ih =>
    intro st roots st' h hmem
    unfold walkRoots at h
    cases hic : st.in_columns.get? 0 with
    | none => rw [hic] at h; exact Option.noConfusion h
    | some col0 =>
      rw [hic] at h
      simp only at h
      cases hw : walkLoop t (walkFuel t) [⟨c, 0, col0, []⟩] st with
      | none => rw [hw] at h; exact Option.noConfusion h
      | some pr =>
        obtain ⟨root, st1⟩ := pr
        rw [hw] at h
        simp only at h
        cases hr : walkRoots t cs st1 with
        | none => rw [hr] at h; exact Option.noConfusion h
        | some pr2 =>
          obtain ⟨roots2, st2⟩ := pr2
          rw [hr] at h
          simp only at h
          rw [Option.some.injEq, Prod.mk.injEq] at h
          obtain ⟨hroots, hst⟩ := h
          subst hroots
          subst hst
          obtain ⟨P1, hperm1, a1, a2, a3, a4, a5, _, aprov⟩ :=
            walkLoop_spec t _ _ _ _ _ hw
          obtain ⟨P2, hperm2, b1, b2, b3, b4, b5, bprov⟩ :=
            ih st1 roots2 st2 hr
              (fun q hq => hmem q (List.mem_cons_of_mem _ hq))
          have hfc : framesCells [Frame.mk c 0 col0 []] = [] := by
            rw [framesCells, framesCells]
            rw [show (Frame.mk c 0 col0 []).childrenRev = [] from rfl,
              preorderForest_nil, List.append_nil]
          rw [hfc, List.nil_append] at hperm1
          refine ⟨P1 ++ P2, ?_, ?_, ?_, ?_, ?_, ?_, ?_⟩
          · rw [preorderForest_cons]
            exact hperm1.append hperm2
          · rw [b1, a1, List.foldl_append]
          · rw [b2, a2, List.foldl_append]
          · rw [b3, a3, List.foldl_append]
          · rw [b4, a4, List.foldl_append]
          · rw [b5, a5, List.foldl_append]
          · intro pc hpc
            rcases List.mem_append.mp hpc with hh | hh
            · rcases aprov pc hh with ⟨fr, hfr, hfr2⟩ | hrr
              · rcases List.mem_singleton.mp hfr with rfl
                rw [← hfr2]
                simpa [framePC] using hmem c (List.mem_cons_self _ _)
              · exact hrr
            · exact bprov pc hh

/-- What a successful `treeify` guarantees, in terms of the multiset `P` of
positioned cells the walk popped. -/
theorem treeify_spec {t : Table} {tree : TreeTable} (hne : t.rows ≠ [])
    (h : t.treeify = some tree) :
    ∃ (P : List PCell) (mr mc : Nat),
      (tree.cells).Perm P
      ∧ tree.header_row = P.foldl hdrStep none
      ∧ maxKey (P.foldl hStep []) = some mr
      ∧ maxKey (P.foldl wStep (seedDict t.column_widths)) = some mc
      ∧ expandRows (P.filter fun pc => pc.content.morerows != 0)
          ((List.range (mr + 1)).map (dget (P.foldl hStep [])))
          = some tree.row_heights
      ∧ expandCols (P.filter fun pc => pc.content.morecols != 0)
          ((List.range (mc + 1)).map
            (dget (P.foldl wStep (seedDict t.column_widths))))
          = some tree.column_widths
      ∧ (∀ pc ∈ P, ∃ rw ∈ t.rows, pc.content ∈ rw) := by
  unfold Table.treeify at h
  cases hrows : t.rows with
  | nil => exact absurd hrows hne
  | cons r0 rrest =>
    rw [hrows] at h
    simp only at h
    cases hw : walkRoots t r0
        { header_row := none
          row_heights := []
          column_widths := seedDict t.column_widths
          in_column_indexes := (r0 :: rrest).map fun _ => 0
          in_columns := (r0 :: rrest).map fun _ => 0
          rowspans := []
          colspans := [] } with
    | none => rw [hw] at h; exact Option.noConfusion h
    | some pr =>
      obtain ⟨top, st⟩ := pr
      rw [hw] at h
      simp only at h
      cases hmr : maxKey st.row_heights with
      | none => rw [hmr] at h; exact Option.noConfusion h
      | some mr =>
        rw [hmr] at h
        simp only at h
        cases hmc : maxKey st.column_widths with
        | none => rw [hmc] at h; exact Option.noConfusion h
        | some mc =>
          rw [hmc] at h
          simp only at h
          cases her : expandRows st.rowspans
              ((List.range (mr + 1)).map (dget st.row_heights)) with
          | none => rw [her] at h; exact Option.noConfusion h
          | some rh2 =>
            rw [her] at h
            simp only at h
            cases hec : expandCols st.colspans
                ((List.range (mc + 1)).map (dget st.column_widths)) with
            | none => rw [hec] at h; exact Option.noConfusion h
            | some cw2 =>
              rw [hec] at h
              simp only at h
              rw [Option.some.injEq] at h
              obtain ⟨P, hperm, c1, c2, c3, c4, c5, cprov⟩ :=
                walkRoots_spec t r0 _ top st hw
                  (fun q hq =>
                    ⟨r0, (by rw [hrows]; exact List.mem_cons_self _ _), hq⟩)
              have d1 : st.header_row = P.foldl hdrStep none := c1
              have d2 : st.row_heights = P.foldl hStep [] := c2
              have d3 : st.column_widths
                  = P.foldl wStep (seedDict t.column_widths) := c3
              have d4 : st.rowspans = P.foldl rsStep [] := c4
              have d5 : st.colspans = P.foldl csStep [] := c5
              refine ⟨P, mr, mc, ?_, ?_, ?_, ?_, ?_, ?_, ?_⟩
              · rw [← h]
                exact hperm
              · rw [← h]
                exact d1
              · rw [← d2]
                exact hmr
              · rw [← d3]
                exact hmc
              · rw [← h]
                rw [foldl_rsStep, List.nil_append] at d4
                rw [← d4, ← d2]
                exact her
              · rw [← h]
                rw [foldl_csStep, List.nil_append] at d5
                rw [← d5, ← d3]
                exact hec
              · rw [hrows] at cprov
                exact cprov

/-! ### Expansion pass lemmas -/

theorem rangeMap_getD (f : Nat → Nat) {n i : Nat} (h : i < n) :
    ((List.range n).map f).getD i 0 = f i := by
  rw [List.getD_eq_getElem?_getD, List.getElem?_map,
    ← List.get?_eq_getElem?, List.get?_range h]
  rfl

theorem expandRowStep_row_lt {hs out : List Nat} {pc : PCell}
    (h : expandRowStep hs pc = some out) : pc.row < hs.length := by
  unfold expandRowStep at h
  cases hg : hs.get? pc.row with
  | none => rw [hg] at h; exact Option.noConfusion h
  | some x =>
    by_contra hge
    rw [List.get?_eq_getElem?, List.getElem?_eq_none (by omega)] at hg
    exact Option.noConfusion hg

theorem expandColStep_col_lt {ws out : List Nat} {pc : PCell}
    (h : expandColStep ws pc = some out) : pc.column < ws.length := by
  unfold expandColStep at h
  cases hg : ws.get? pc.column with
  | none => rw [hg] at h; exact Option.noConfusion h
  | some x =>
    by_contra hge
    rw [List.get?_eq_getElem?, List.getElem?_eq_none (by omega)] at hg
    exact Option.noConfusion hg

theorem getD_set_self (l : List Nat) (r x : Nat) (h : r < l.length) :
    (l.set r x).getD r 0 = x := by
  rw [List.getD_eq_getElem?_getD, List.getElem?_set_self',
    List.getElem?_eq_getElem h]
  rfl

theorem getD_set_ne (l : List Nat) (r x i : Nat) (h : i ≠ r) :
    (l.set r x).getD i 0 = l.getD i 0 := by
  rw [List.getD_eq_getElem?_getD, List.getElem?_set_ne (fun e => h e.symm),
    ← List.getD_eq_getElem?_getD]

theorem expandRowStep_length {hs out : List Nat} {pc : PCell}
    (h : expandRowStep hs pc = some out) : out.length = hs.length := by
  obtain ⟨hfit, hgrow⟩ := expandRowStep_spec h
  by_cases hc : pc.content.content_height ≤ coveredHeight hs pc
  · rw [hfit hc]
  · rw [hgrow (by omega), List.length_set]

theorem expandColStep_length {ws out : List Nat} {pc : PCell}
    (h : expandColStep ws pc = some out) : out.length = ws.length := by
  obtain ⟨hfit, hgrow⟩ := expandColStep_spec h
  by_cases hc : pc.content.content_width ≤ coveredWidth ws pc
  · rw [hfit hc]
  · rw [hgrow (by omega), List.length_set]

theorem expandRowStep_le {hs out : List Nat} {pc : PCell}
    (h : expandRowStep hs pc = some out) (i : Nat) :
    hs.getD i 0 ≤ out.getD i 0 := by
  have hlt := expandRowStep_row_lt h
  obtain ⟨hfit, hgrow⟩ := expandRowStep_spec h
  by_cases hc : pc.content.content_height ≤ coveredHeight hs pc
  · rw [hfit hc]
  · rw [hgrow (by omega)]
    by_cases hi : i = pc.row
    · subst hi
      rw [getD_set_self _ _ _ hlt]
      omega
    · rw [getD_set_ne _ _ _ _ hi]

theorem expandColStep_le {ws out : List Nat} {pc : PCell}
    (h : expandColStep ws pc = some out) (i : Nat) :
    ws.getD i 0 ≤ out.getD i 0 := by
  have hlt := expandColStep_col_lt h
  obtain ⟨hfit, hgrow⟩ := expandColStep_spec h
  by_cases hc : pc.content.content_width ≤ coveredWidth ws pc
  · rw [hfit hc]
  · rw [hgrow (by omega)]
    by_cases hi : i = pc.column
    · subst hi
      rw [getD_set_self _ _ _ hlt]
      omega
    · rw [getD_set_ne _ _ _ _ hi]

theorem expandRows_length : ∀ {spans : List PCell} {hs hs' : List Nat},
    expandRows spans hs = some hs' → hs'.length = hs.length := by
  intro spans
  induction spans with
  | nil =>
    intro hs hs' h
    exact (Option.some.inj h) ▸ rfl
  | cons pc rest ih =>
    intro hs hs' h
    unfold expandRows at h
    cases hstep : expandRowStep hs pc with
    | none => rw [hstep] at h; exact Option.noConfusion h
    | some hs1 =>
      rw [hstep] at h
      simp only at h
      rw [ih h, expandRowStep_length hstep]

theorem expandCols_length : ∀ {spans : List PCell} {ws ws' : List Nat},
    expandCols spans ws = some ws' → ws'.length = ws.length := by
  intro spans
  induction spans with
  | nil =>
    intro ws ws' h
    exact (Option.some.inj h) ▸ rfl
  | cons pc rest ih =>
    intro ws ws' h
    unfold expandCols at h
    cases hstep : expandColStep ws pc with
    | none => rw [hstep] at h; exact Option.noConfusion h
    | some ws1 =>
      rw [hstep] at h
      simp only at h
      rw [ih h, expandColStep_length hstep]

theorem expandRows_le : ∀ {spans : List PCell} {hs hs' : List Nat},
    expandRows spans hs = some hs' → ∀ i, hs.getD i 0 ≤ hs'.getD i 0 := by
  intro spans
  induction spans with
  | nil =>
    intro hs hs' h i
    rw [Option.some.inj h]
  | cons pc rest ih =>
    intro hs hs' h i
    unfold expandRows at h
    cases hstep : expandRowStep hs pc with
    | none => rw [hstep] at h; exact Option.noConfusion h
    | some hs1 =>
      rw [hstep] at h
      simp only at h
      exact le_trans (expandRowStep_le hstep i) (ih h i)

theorem expandCols_le : ∀ {spans : List PCell} {ws ws' : List Nat},
    expandCols spans ws = some ws' → ∀ i, ws.getD i 0 ≤ ws'.getD i 0 := by
  intro spans
  induction spans with
  | nil =>
    intro ws ws' h i
    rw [Option.some.inj h]
  | cons pc rest ih =>
    intro ws ws' h i
    unfold expandCols at h
    cases hstep : expandColStep ws pc with
    | none => rw [hstep] at h; exact Option.noConfusion h
    | some ws1 =>
      rw [hstep] at h
      simp only at h
      exact le_trans (expandColStep_le hstep i) (ih h i)

theorem sum_take_mono : ∀ (n : Nat) (l l' : List Nat),
    l.length = l'.length → (∀ i, l.getD i 0 ≤ l'.getD i 0) →
    (l.take n).sum ≤ (l'.take n).sum := by
  intro n
  induction n with
  | zero => simp
  | succ n ih =>
    intro l l' hlen hle
    cases l with
    | nil => simp
    | cons x xs =>
      cases l' with
      | nil => simp at hlen
      | cons y ys =>
        rw [List.take_succ_cons, List.take_succ_cons, List.sum_cons,
          List.sum_cons]
        have h0 : x ≤ y := by simpa using hle 0
        have ht := ih xs ys (by simpa using hlen)
          (fun i => by simpa using hle (i + 1))
        omega

theorem sum_drop_take_mono : ∀ (c n : Nat) (l l' : List Nat),
    l.length = l'.length → (∀ i, l.getD i 0 ≤ l'.getD i 0) →
    ((l.drop c).take n).sum ≤ ((l'.drop c).take n).sum := by
  intro c
  induction c with
  | zero =>
    intro n l l' h1 h2
    simpa using sum_take_mono n l l' h1 h2
  | succ c ih =>
    intro n l l' hlen hle
    cases l with
    | nil => simp
    | cons x xs =>
      cases l' with
      | nil => simp at hlen
      | cons y ys =>
        rw [List.drop_succ_cons, List.drop_succ_cons]
        exact ih n xs ys (by simpa using hlen)
          (fun i => by simpa using hle (i + 1))

theorem drop_succ_set : ∀ (l : List Nat) (c x : Nat),
    (l.set c x).drop (c + 1) = l.drop (c + 1) := by
  intro l
  induction l with
  | nil => intro c x; rfl
  | cons y ys ih =>
    intro c x
    cases c with
    | zero => rfl
    | succ c =>
      rw [List.set_cons_succ, List.drop_succ_cons, List.drop_succ_cons]
      exact ih c x

theorem expandRowStep_suff {hs out : List Nat} {pc : PCell}
    (h : expandRowStep hs pc = some out) :
    pc.content.content_height
      ≤ ((out.drop pc.row).take (pc.content.morerows + 1)).sum
        + pc.content.morerows := by
  have hlt := expandRowStep_row_lt h
  have hget : hs.get? pc.row = some (hs.getD pc.row 0) := by
    rw [List.get?_eq_getElem?, List.getElem?_eq_getElem hlt,
      List.getD_eq_getElem?_getD, List.getElem?_eq_getElem hlt]
    rfl
  have hsum0 := drop_take_sum_of_get? pc.content.morerows hget
  have hmin := Nat.min_le_left pc.content.morerows
    (hs.length - (pc.row + 1))
  have hcov : coveredHeight hs pc
      = ((hs.drop pc.row).take (pc.content.morerows + 1)).sum
        + min pc.content.morerows (hs.length - (pc.row + 1)) := rfl
  obtain ⟨hfit, hgrow⟩ := expandRowStep_spec h
  by_cases hc : pc.content.content_height ≤ coveredHeight hs pc
  · rw [hfit hc]
    omega
  · have hlt2 : coveredHeight hs pc < pc.content.content_height := by omega
    rw [hgrow hlt2]
    have hset : (hs.set pc.row (hs.getD pc.row 0
        + (pc.content.content_height - coveredHeight hs pc))).get? pc.row
        = some (hs.getD pc.row 0
          + (pc.content.content_height - coveredHeight hs pc)) :=
      List.get?_set_eq_of_lt _ hlt
    have hsum1 := drop_take_sum_of_get? pc.content.morerows hset
    rw [drop_succ_set] at hsum1
    omega

theorem expandColStep_suff {ws out : List Nat} {pc : PCell}
    (h : expandColStep ws pc = some out) :
    pc.content.content_width
      ≤ ((out.drop pc.column).take (pc.content.morecols + 1)).sum
        + pc.content.morecols := by
  have hlt := expandColStep_col_lt h
  have hget : ws.get? pc.column = some (ws.getD pc.column 0) := by
    rw [List.get?_eq_getElem?, List.getElem?_eq_getElem hlt,
      List.getD_eq_getElem?_getD, List.getElem?_eq_getElem hlt]
    rfl
  have hsum0 := drop_take_sum_of_get? pc.content.morecols hget
  have hmin := Nat.min_le_left pc.content.morecols
    (ws.length - (pc.column + 1))
  have hcov : coveredWidth ws pc
      = ((ws.drop pc.column).take (pc.content.morecols + 1)).sum
        + min pc.content.morecols (ws.length - (pc.column + 1)) := rfl
  obtain ⟨hfit, hgrow⟩ := expandColStep_spec h
  by_cases hc : pc.content.content_width ≤ coveredWidth ws pc
  · rw [hfit hc]
    omega
  · have hlt2 : coveredWidth ws pc < pc.content.content_width := by omega
    rw [hgrow hlt2]
    have hset : (ws.set pc.column (ws.getD pc.column 0
        + (pc.content.content_width - coveredWidth ws pc))).get? pc.column
        = some (ws.getD pc.column 0
          + (pc.content.content_width - coveredWidth ws pc)) :=
      List.get?_set_eq_of_lt _ hlt
    have hsum1 := drop_take_sum_of_get? pc.content.morecols hset
    rw [drop_succ_set] at hsum1
    omega

theorem expandRows_suff : ∀ {spans : List PCell} {hs hs' : List Nat},
    expandRows spans hs = some hs' → ∀ pc ∈ spans,
    pc.content.content_height
      ≤ ((hs'.drop pc.row).take (pc.content.morerows + 1)).sum
        + pc.content.morerows := by
  intro spans
  induction spans with
  | nil =>
    intro hs hs' h pc hpc
    simp at hpc
  | cons pc0 rest ih =>
    intro hs hs' h pc hpc
    unfold expandRows at h
    cases hstep : expandRowStep hs pc0 with
    | none => rw [hstep] at h; exact Option.noConfusion h
    | some hs1 =>
      rw [hstep] at h
      simp only at h
      rcases List.mem_cons.mp hpc with rfl | hh
      · have hsuff := expandRowStep_suff hstep
        have hmono := sum_drop_take_mono pc.row (pc.content.morerows + 1)
          hs1 hs' (expandRows_length h).symm (expandRows_le h)
        omega
      · exact ih h pc hh

theorem expandCols_suff : ∀ {spans : List PCell} {ws ws' : List Nat},
    expandCols spans ws = some ws' → ∀ pc ∈ spans,
    pc.content.content_width
      ≤ ((ws'.drop pc.column).take (pc.content.morecols + 1)).sum
        + pc.content.morecols := by
  intro spans
  induction spans with
  | nil =>
    intro ws ws' h pc hpc
    simp at hpc
  | cons pc0 rest ih =>
    intro ws ws' h pc hpc
    unfold expandCols at h
    cases hstep : expandColStep ws pc0 with
    | none => rw [hstep] at h; exact Option.noConfusion h
    | some ws1 =>
      rw [hstep] at h
      simp only at h
      rcases List.mem_cons.mp hpc with rfl | hh
      · have hsuff := expandColStep_suff hstep
        have hmono := sum_drop_take_mono pc.column (pc.content.morecols + 1)
          ws1 ws' (expandCols_length h).symm (expandCols_le h)
        omega
      · exact ih h pc hh

/-- `treeify` of a rows-empty table, as an equation usable in proofs. -/
theorem treeify_nil_rows {t : Table} (h : t.rows = []) :
    t.treeify = some ⟨none, [], [], []⟩ := by
  unfold Table.treeify
  rw [h]

/-! ### Conditional-max fold lemmas -/

theorem condMax_init_out (q : PCell → Prop) [DecidablePred q]
    (g : PCell → Nat) (P : List PCell) :
    ∀ (a b : Nat),
      P.foldl (fun a c => if q c then max a (g c) else a) (max a b)
        = max a (P.foldl (fun a c => if q c then max a (g c) else a) b) := by
  induction P with
  | nil => intro a b; rfl
  | cons c rest ih =>
    intro a b
    simp only [List.foldl_cons]
    by_cases hq : q c
    · rw [if_pos hq, if_pos hq, max_assoc, ih]
    · rw [if_neg hq, if_neg hq, ih]

theorem perm_foldl_condMax (q : PCell → Prop) [DecidablePred q]
    (g : PCell → Nat) {P Q : List PCell} (hp : P.Perm Q) :
    ∀ a, P.foldl (fun a c => if q c then max a (g c) else a) a
      = Q.foldl (fun a c => if q c then max a (g c) else a) a := by
  induction hp with
  | nil => intro a; rfl
  | cons x hrest ih =>
    intro a
    simp only [List.foldl_cons]
    exact ih _
  | swap x y l =>
    intro a
    simp only [List.foldl_cons]
    congr 1
    by_cases hx : q x <;> by_cases hy : q y
    · simp only [if_pos hx, if_pos hy]
      rw [max_assoc, max_comm (g y) (g x), ← max_assoc]
    · simp only [if_pos hx, if_neg hy]
    · simp only [if_neg hx, if_pos hy]
    · simp only [if_neg hx, if_neg hy]
  | trans h1 h2 ih1 ih2 =>
    intro a
    exact (ih1 a).trans (ih2 a)

theorem foldl_cond_and {i : Nat} : ∀ (P : List PCell) (a : Nat),
    (∀ pc ∈ P, pc.content.morecols = 0) →
    P.foldl
      (fun a pc =>
        if pc.content.morecols = 0 ∧ pc.column = i then
          max a pc.content.content_width
        else a) a
      = P.foldl
          (fun a pc =>
            if pc.column = i then max a pc.content.content_width else a)
          a := by
  intro P
  induction P with
  | nil => intro a _; rfl
  | cons pc rest ih =>
    intro a hall
    simp only [List.foldl_cons]
    have h0 : pc.content.morecols = 0 := hall pc (List.mem_cons_self _ _)
    have heq : (if pc.content.morecols = 0 ∧ pc.column = i then
          max a pc.content.content_width else a)
        = (if pc.column = i then max a pc.content.content_width else a) := by
      by_cases hcol : pc.column = i
      · rw [if_pos ⟨h0, hcol⟩, if_pos hcol]
      · rw [if_neg (fun hc => hcol hc.2), if_neg hcol]
    rw [heq]
    exact ih _ (fun qq hq => hall qq (List.mem_cons_of_mem _ hq))

theorem dget_seedDict (ws : List Nat) (k : Nat) :
    dget (seedDict ws) k = ws.getD k 0 := by
  rw [seedDict, dget_seedFrom]
  by_cases hk : k < ws.length
  · rw [if_pos ⟨Nat.zero_le _, by omega⟩]
    simp
  · rw [if_neg (by omega)]
    rw [List.getD_eq_getElem?_getD, List.getElem?_eq_none (by omega)]
    rfl

/-! ### Claim theorems (part 2: treeify properties) -/

/-- C2: for every cell the resolver deferred as a column span, the resolved
column widths cover its content width (`sum(column_widths[c..c+morecols+1])
+ morecols >= content_width`), and symmetrically for row spans against the
resolved row heights. -/
theorem claim2_span_sufficiency {t : Table} {tree : TreeTable}
    (h : t.treeify = some tree) : SpanSufficiency tree := by
  intro pc hpc
  cases hrows : t.rows with
  | nil =>
    rw [treeify_nil_rows hrows] at h
    cases Option.some.inj h
    simp [TreeTable.cells, preorderForest_nil] at hpc
  | cons r0 rrest =>
    obtain ⟨P, mr, mc, hperm, hhdr, hmr, hmc, hexpR, hexpC, hprov⟩ :=
      treeify_spec (by simp [hrows]) h
    have hP : pc ∈ P := hperm.mem_iff.mp hpc
    constructor
    · intro hmc0
      have hfil : pc ∈ P.filter (fun q => q.content.morecols != 0) :=
        List.mem_filter.mpr ⟨hP, by simp [hmc0]⟩
      have := expandCols_suff hexpC pc hfil
      omega
    · intro hmr0
      have hfil : pc ∈ P.filter (fun q => q.content.morerows != 0) :=
        List.mem_filter.mpr ⟨hP, by simp [hmr0]⟩
      have := expandRows_suff hexpR pc hfil
      omega

/-- Witness for C2 at a concrete table with a two-row rowspan and two
colspans. -/
theorem claim2_span_sufficiency_witness :
    SpanSufficiency (tblWitSpan.treeify.get!) :=
  @claim2_span_sufficiency tblWitSpan _ rfl

/-- C4 (amended with "rows non-empty"): whenever `treeify` returns on a
table with at least one row, the resolved column widths dominate the
declared ones index by index; row heights are non-negative and the
resolved height of a row is big enough for every non-spanning cell that
originates there. -/
theorem claim4_width_monotonicity {t : Table} {tree : TreeTable}
    (hne : t.rows ≠ []) (h : t.treeify = some tree) :
    WidthMonotonicity t tree := by
  obtain ⟨P, mr, mc, hperm, hhdr, hmr, hmc, hexpR, hexpC, hprov⟩ :=
    treeify_spec hne h
  have hcwlen : tree.column_widths.length = mc + 1 := by
    rw [expandCols_length hexpC]
    simp
  have hrhlen : tree.row_heights.length = mr + 1 := by
    rw [expandRows_length hexpR]
    simp
  have hseedle : ∀ i, i < t.column_widths.length → i < mc + 1 := by
    intro i hi
    have hmem : i ∈ dkeys (seedDict t.column_widths) :=
      mem_dkeys_seedFrom (Nat.zero_le _) (by omega)
    have := maxKey_le hmc _ (mem_dkeys_foldl_wStep P _ hmem)
    omega
  refine ⟨?_, ?_, fun j => Nat.zero_le _, ?_⟩
  · cases hcw : t.column_widths with
    | nil => simp
    | cons w wrest =>
      have hlen1 : t.column_widths.length = wrest.length + 1 := by
        rw [hcw]
        rfl
      have hlen2 : (w :: wrest).length = wrest.length + 1 := rfl
      have := hseedle (t.column_widths.length - 1) (by omega)
      omega
  · intro i hi
    have h1 : dget (seedDict t.column_widths) i = t.column_widths.getD i 0 :=
      dget_seedDict _ _
    have h2 : dget (seedDict t.column_widths) i
        ≤ dget (P.foldl wStep (seedDict t.column_widths)) i := by
      rw [dget_foldl_wStep]
      exact condMax_ge_init _ _ _ _
    have h3 : ((List.range (mc + 1)).map
          (dget (P.foldl wStep (seedDict t.column_widths)))).getD i 0
        = dget (P.foldl wStep (seedDict t.column_widths)) i :=
      rangeMap_getD _ (hseedle i hi)
    have h4 := expandCols_le hexpC i
    rw [h3] at h4
    omega
  · intro pc hpc hmr0
    have hP : pc ∈ P := hperm.mem_iff.mp hpc
    have hkey := mem_dkeys_foldl_hStep_of_mem hP hmr0 []
    have hrle := maxKey_le hmr _ hkey
    refine ⟨by omega, ?_⟩
    have h5 : pc.content.content_height
        ≤ dget (P.foldl hStep []) pc.row := by
      rw [dget_foldl_hStep]
      exact condMax_ge_mem
        (fun qq => qq.content.morerows = 0 ∧ qq.row = pc.row)
        (fun qq => qq.content.content_height) hP ⟨hmr0, rfl⟩ _
    have h6 : ((List.range (mr + 1)).map
          (dget (P.foldl hStep []))).getD pc.row 0
        = dget (P.foldl hStep []) pc.row :=
      rangeMap_getD _ (by omega)
    have h7 := expandRows_le hexpR pc.row
    rw [h6] at h7
    omega

/-- Witness for C4 at a concrete table with spans. -/
theorem claim4_width_monotonicity_witness :
    WidthMonotonicity tblWitSpan (tblWitSpan.treeify.get!) :=
  @claim4_width_monotonicity tblWitSpan _ (by decide) rfl

/-- Counterexample to C4 as stated: an empty table (no rows) with a
declared column satisfies the coverage invariant, yet `treeify` returns a
`TreeTable` with no resolved column widths at all, so resolved
`column_widths[0]` does not dominate the declared width 5. -/
theorem claim4_counterexample :
    coverageInvariant tblC4empty = true
    ∧ tblC4empty.treeify = some ⟨none, [], [], []⟩
    ∧ 0 < tblC4empty.column_widths.length
    ∧ ∀ tree, tblC4empty.treeify = some tree →
        tree.column_widths.getD 0 0 < tblC4empty.column_widths.getD 0 0 := by
  refine ⟨rfl, rfl, by decide, ?_⟩
  intro tree htree
  have h2 : (some (⟨none, [], [], []⟩ : TreeTable) : Option TreeTable)
      = some tree := htree
  cases Option.some.inj h2
  decide

/-- C6: in a table with no spans anywhere, each resolved column width is
exactly the maximum of the declared width and the largest content width
among the cells of that column. -/
theorem claim6_nospan_exact_widths {t : Table} {tree : TreeTable}
    (h : t.treeify = some tree)
    (hnospan : ∀ row ∈ t.rows, ∀ c ∈ row, c.morecols = 0 ∧ c.morerows = 0) :
    NoSpanExactWidths t tree := by
  intro i hi
  cases hrows : t.rows with
  | nil =>
    rw [treeify_nil_rows hrows] at h
    cases Option.some.inj h
    simp at hi
  | cons r0 rrest =>
    obtain ⟨P, mr, mc, hperm, hhdr, hmr, hmc, hexpR, hexpC, hprov⟩ :=
      treeify_spec (by simp [hrows]) h
    have hall : ∀ pc ∈ P, pc.content.morecols = 0 := by
      intro pc hpc
      obtain ⟨rw0, hrw, hcin⟩ := hprov pc hpc
      exact (hnospan rw0 hrw _ hcin).1
    have hfil : P.filter (fun q => q.content.morecols != 0) = [] := by
      rw [List.filter_eq_nil]
      intro a ha
      simp [hall a ha]
    rw [hfil] at hexpC
    have hcweq : tree.column_widths
        = (List.range (mc + 1)).map
            (dget (P.foldl wStep (seedDict t.column_widths))) := by
      unfold expandCols at hexpC
      exact (Option.some.inj hexpC).symm
    have hlen : tree.column_widths.length = mc + 1 := by
      rw [hcweq]
      simp
    have hilt : i < mc + 1 := by omega
    rw [hcweq, rangeMap_getD _ hilt, dget_foldl_wStep,
      foldl_cond_and P _ hall, dget_seedDict]
    rw [perm_foldl_condMax (fun pc => pc.column = i)
      (fun pc => pc.content.content_width) hperm 0]
    have hfac := condMax_init_out (fun pc => pc.column = i)
      (fun pc => pc.content.content_width) P (t.column_widths.getD i 0) 0
    rw [Nat.max_zero] at hfac
    exact hfac

/-- Witness for C6 at a concrete no-span table with a header band. -/
theorem claim6_nospan_exact_widths_witness :
    NoSpanExactWidths tblWitHdr (tblWitHdr.treeify.get!) :=
  @claim6_nospan_exact_widths tblWitHdr _ rfl (by decide)

/-! ### Render buffer lemmas -/

theorem extendAt_get?_self {bufs : List Str} {i : Nat} {s : Str}
    {out : List Str} (h : extendAt bufs i s = some out) :
    out.get? i = (bufs.get? i).map (· ++ s) := by
  unfold extendAt at h
  cases hg : bufs.get? i with
  | none => rw [hg] at h; exact Option.noConfusion h
  | some b =>
    rw [hg] at h
    simp only at h
    have hi : i < bufs.length := by
      by_contra hge
      rw [List.get?_eq_getElem?, List.getElem?_eq_none (by omega)] at hg
      exact Option.noConfusion hg
    rw [← Option.some.inj h, List.get?_set_eq_of_lt _ hi]
    rfl

theorem extendAt_get?_ne {bufs : List Str} {i : Nat} {s : Str}
    {out : List Str} (h : extendAt bufs i s = some out) {j : Nat}
    (hj : j ≠ i) : out.get? j = bufs.get? j := by
  unfold extendAt at h
  cases hg : bufs.get? i with
  | none => rw [hg] at h; exact Option.noConfusion h
  | some b =>
    rw [hg] at h
    simp only at h
    rw [← Option.some.inj h]
    exact List.get?_set_ne _ _ (fun e => hj e.symm)

theorem writeCellLines_get?_outside (cell : CellContent) (pre : Str)
    (w : Nat) :
    ∀ (count : Nat) (bufs : List Str) (base start : Nat) (out : List Str),
      writeCellLines cell pre w bufs base start count = some out →
      ∀ j, (∀ i, start ≤ i → i < start + count → base + i ≠ j) →
      out.get? j = bufs.get? j := by
  intro count
  induction count with
  | zero =>
    intro bufs base start out h j _
    rw [← Option.some.inj h]
  | succ n ih =>
    intro bufs base start out h j hj
    unfold writeCellLines at h
    split at h
    · exact Option.noConfusion h
    · rename_i bufs1 hx
      rw [ih bufs1 base (start + 1) out h j
        (fun i hi1 hi2 => hj i (by omega) (by omega))]
      exact extendAt_get?_ne hx
        (fun e => hj start (le_refl _) (by omega) e.symm)

theorem pySetCharAt_get?_ne {bufs : List Str} {i left : Nat} {ch : Char}
    {out : List Str} (h : pySetCharAt bufs i left ch = some out) {j : Nat}
    (hj : j ≠ i) : out.get? j = bufs.get? j := by
  unfold pySetCharAt at h
  split at h
  · exact Option.noConfusion h
  · split at h
    · split at h
      · exact Option.noConfusion h
      · rw [← Option.some.inj h]
        exact List.get?_set_ne _ _ (fun e => hj e.symm)
    · split at h
      · rw [← Option.some.inj h]
        exact List.get?_set_ne _ _ (fun e => hj e.symm)
      · exact Option.noConfusion h

theorem cellOffset_pos (tree : TreeTable) (pc : PCell) :
    1 ≤ cellOffset tree pc := by
  unfold cellOffset
  omega

/-- Where and what the renderer writes as the divider below a cell of
positive rendered height: the buffer directly below the cell's content
block is extended with exactly the `row_divider` whose header flag tests
the cell's row against `header_row`. -/
theorem renderCell_divider (tree : TreeTable) (bufs : List Str)
    (prev : Option Nat) (pc : PCell) (out : List Str × Option Nat)
    (hrc : renderCell tree bufs prev pc = some out)
    (hh : 0 < cellHeight tree pc) :
    out.1.get? (cellOffset tree pc + cellHeight tree pc)
      = (bufs.get? (cellOffset tree pc + cellHeight tree pc)).map
          (· ++ Table.row_divider pc.column (cellWidth tree pc)
            (tree.header_row == some pc.row)) := by
  have hoff := cellOffset_pos tree pc
  unfold renderCell at hrc
  split at hrc
  · exact Option.noConfusion hrc
  · split at hrc
    · exact Option.noConfusion hrc
    · rename_i bufs1 hwl
      split at hrc
      · exact Option.noConfusion hrc
      · rename_i bufs2 htop
        split at hrc
        · exact Option.noConfusion hrc
        · rename_i idx hidx
          split at hrc
          · exact Option.noConfusion hrc
          · rename_i bufs3 hdiv
            split at hrc
            · exact Option.noConfusion hrc
            · rename_i bufs4 hpset
              have hout : out.1 = bufs4 := by
                rw [← Option.some.inj hrc]
              have hidxval : idx = cellHeight tree pc - 1 := by
                rw [if_pos hh] at hidx
                exact (Option.some.inj hidx).symm
              have hix : cellOffset tree pc + idx + 1
                  = cellOffset tree pc + cellHeight tree pc := by
                omega
              rw [hix] at hdiv
              have h4 : bufs4.get?
                    (cellOffset tree pc + cellHeight tree pc)
                  = bufs3.get?
                    (cellOffset tree pc + cellHeight tree pc) :=
                pySetCharAt_get?_ne hpset (by omega)
              have h3 := extendAt_get?_self hdiv
              have h2 : bufs2.get?
                    (cellOffset tree pc + cellHeight tree pc)
                  = bufs1.get?
                    (cellOffset tree pc + cellHeight tree pc) := by
                by_cases hr0 : pc.row = 0
                · rw [if_pos hr0] at htop
                  exact extendAt_get?_ne htop (by omega)
                · rw [if_neg hr0] at htop
                  rw [← Option.some.inj htop]
              have h1 : bufs1.get?
                    (cellOffset tree pc + cellHeight tree pc)
                  = bufs.get?
                    (cellOffset tree pc + cellHeight tree pc) :=
                writeCellLines_get?_outside _ _ _ _ _ _ _ _ hwl _
                  (fun i hi1 hi2 => by omega)
              rw [hout, h4, h3, h2, h1]

theorem foldl_hdrStep_none_of : ∀ {P : List PCell},
    (∀ pc ∈ P, pc.content.header = false) →
    P.foldl hdrStep none = none := by
  intro P
  induction P with
  | nil => intro _; rfl
  | cons pc rest ih =>
    intro hall
    simp only [List.foldl_cons]
    have hstep : hdrStep none pc = none := by
      unfold hdrStep
      rw [if_neg (by simp [hall pc (List.mem_cons_self _ _)])]
    rw [hstep]
    exact ih (fun q hq => hall q (List.mem_cons_of_mem _ hq))

theorem row_divider_chars (col w : Nat) (hdr : Bool) :
    ∀ ch ∈ Table.row_divider col w hdr,
      ch = '+' ∨ ch = (if hdr then '=' else '-') := by
  intro ch hch
  unfold Table.row_divider at hch
  rcases List.mem_append.mp hch with hh | hh
  · rcases List.mem_append.mp hh with h2 | h2
    · by_cases hc : col = 0
      · rw [if_pos hc] at h2
        exact Or.inl (List.mem_singleton.mp h2)
      · rw [if_neg hc] at h2
        simp at h2
    · exact Or.inr (List.eq_of_mem_replicate h2)
  · exact Or.inl (List.mem_singleton.mp hh)

theorem row_divider_fill (col w : Nat) (hw : 0 < w) :
    '=' ∈ Table.row_divider col w true
    ∧ '=' ∉ Table.row_divider col w false := by
  constructor
  · unfold Table.row_divider
    refine List.mem_append.mpr (Or.inl (List.mem_append.mpr (Or.inr ?_)))
    exact List.mem_replicate.mpr ⟨by omega, by rfl⟩
  · intro hch
    rcases row_divider_chars col w false '=' hch with hh | hh
    · exact absurd hh (by decide)
    · exact absurd hh (by decide)

theorem extendAt_length {bufs : List Str} {i : Nat} {s : Str}
    {out : List Str} (h : extendAt bufs i s = some out) :
    out.length = bufs.length := by
  unfold extendAt at h
  split at h
  · exact Option.noConfusion h
  · rw [← Option.some.inj h, List.length_set]

theorem writeCellLines_length (cell : CellContent) (pre : Str) (w : Nat) :
    ∀ (count : Nat) (bufs : List Str) (base start : Nat) (out : List Str),
      writeCellLines cell pre w bufs base start count = some out →
      out.length = bufs.length := by
  intro count
  induction count with
  | zero =>
    intro bufs base start out h
    rw [← Option.some.inj h]
  | succ n ih =>
    intro bufs base start out h
    unfold writeCellLines at h
    split at h
    · exact Option.noConfusion h
    · rename_i bufs1 hx
      rw [ih bufs1 base (start + 1) out h, extendAt_length hx]

theorem pySetCharAt_length {bufs : List Str} {i left : Nat} {ch : Char}
    {out : List Str} (h : pySetCharAt bufs i left ch = some out) :
    out.length = bufs.length := by
  unfold pySetCharAt at h
  split at h
  · exact Option.noConfusion h
  · split at h
    · split at h
      · exact Option.noConfusion h
      · rw [← Option.some.inj h, List.length_set]
    · split at h
      · rw [← Option.some.inj h, List.length_set]
      · exact Option.noConfusion h

theorem renderCell_length {tree : TreeTable} {bufs : List Str}
    {prev : Option Nat} {pc : PCell} {out : List Str × Option Nat}
    (h : renderCell tree bufs prev pc = some out) :
    out.1.length = bufs.length := by
  unfold renderCell at h
  split at h
  · exact Option.noConfusion h
  · split at h
    · exact Option.noConfusion h
    · rename_i bufs1 hwl
      split at h
      · exact Option.noConfusion h
      · rename_i bufs2 htop
        split at h
        · exact Option.noConfusion h
        · rename_i idx hidx
          split at h
          · exact Option.noConfusion h
          · rename_i bufs3 hdiv
            split at h
            · exact Option.noConfusion h
            · rename_i bufs4 hpset
              have hout : out.1 = bufs4 := by
                rw [← Option.some.inj h]
              have h2 : bufs2.length = bufs1.length := by
                by_cases hr0 : pc.row = 0
                · rw [if_pos hr0] at htop
                  exact extendAt_length htop
                · rw [if_neg hr0] at htop
                  rw [← Option.some.inj htop]
              rw [hout, pySetCharAt_length hpset, extendAt_length hdiv, h2,
                writeCellLines_length _ _ _ _ _ _ _ _ hwl]

theorem renderCells_length (tree : TreeTable) :
    ∀ (cells : List PCell) (bufs : List Str) (prev : Option Nat)
      (out : List Str × Option Nat),
      renderCells tree bufs prev cells = some out →
      out.1.length = bufs.length := by
  intro cells
  induction cells with
  | nil =>
    intro bufs prev out h
    rw [← Option.some.inj h]
  | cons pc rest ih =>
    intro bufs prev out h
    unfold renderCells at h
    split at h
    · exact Option.noConfusion h
    · rename_i pr hrc
      rw [ih _ _ _ h]
      exact renderCell_length hrc

/-- Whenever `render` does return a list of lines, the line count is
exactly `sum(row_heights) + row_count + 1` for the `TreeTable` its
`treeify` produced: the buffer count is fixed before the cell loop and
every write preserves it. -/
theorem render_length {t : Table} {out : List Str}
    (h : t.render = some out) :
    ∃ tree, t.treeify = some tree
      ∧ out.length = tree.row_heights.sum + tree.row_heights.length + 1 := by
  unfold Table.render at h
  split at h
  · exact Option.noConfusion h
  · rename_i tree htree
    refine ⟨tree, htree, ?_⟩
    split at h
    · exact Option.noConfusion h
    · rename_i pr hcells
      rw [← Option.some.inj h, renderCells_length _ _ _ _ _ hcells,
        List.length_replicate]

/-- C9: whenever `treeify` returns, `header_row` equals the maximum
origin-row index over the cells with `header = true` (absent when no cell
is a header); and in the renderer, the divider line emitted immediately
below a (positive-height) cell is the `row_divider` filled with `=`
exactly when that cell's origin row equals `header_row`, and with `-`
otherwise. -/
theorem claim9_header_row {t : Table} {tree : TreeTable}
    (h : t.treeify = some tree) : HeaderRowDividers tree := by
  refine ⟨?_, ?_,
    fun bufs prev pc out hrc hh => renderCell_divider _ _ _ _ _ hrc hh,
    fun col w hdr ch hch => row_divider_chars col w hdr ch hch,
    fun col w hw => row_divider_fill col w hw⟩
  · cases hrows : t.rows with
    | nil =>
      rw [treeify_nil_rows hrows] at h
      cases Option.some.inj h
      constructor
      · intro _ pc hpc
        simp [TreeTable.cells, preorderForest_nil] at hpc
      · intro _
        rfl
    | cons r0 rrest =>
      obtain ⟨P, mr, mc, hperm, hhdr, hmr, hmc, hexpR, hexpC, hprov⟩ :=
        treeify_spec (by simp [hrows]) h
      constructor
      · intro hnone pc hpc
        rw [hhdr] at hnone
        exact (foldl_hdrStep_none hnone).2 pc (hperm.mem_iff.mp hpc)
      · intro hall
        rw [hhdr]
        exact foldl_hdrStep_none_of
          (fun pc hpc => hall pc (hperm.mem_iff.mpr hpc))
  · cases hrows : t.rows with
    | nil =>
      rw [treeify_nil_rows hrows] at h
      cases Option.some.inj h
      intro hr hsome
      exact Option.noConfusion hsome
    | cons r0 rrest =>
      obtain ⟨P, mr, mc, hperm, hhdr, hmr, hmc, hexpR, hexpC, hprov⟩ :=
        treeify_spec (by simp [hrows]) h
      intro hr hsome
      rw [hhdr] at hsome
      obtain ⟨hcases, hbound, _⟩ := foldl_hdrStep_some hsome
      constructor
      · rcases hcases with hc | hc
        · exact Option.noConfusion hc
        · obtain ⟨pc, hpc, hh1, hh2⟩ := hc
          exact ⟨pc, hperm.mem_iff.mpr hpc, hh1, hh2⟩
      · intro pc hpc hph
        exact hbound pc (hperm.mem_iff.mp hpc) hph

/-- Witness for C9 at a concrete table with a header band. -/
theorem claim9_header_row_witness :
    HeaderRowDividers (tblWitHdr.treeify.get!) :=
  @claim9_header_row tblWitHdr _ rfl

/-! ### Claim theorems (part 1) -/

/-- C1: the claim asserts that for every table satisfying the coverage
invariant `render` returns a list of exactly `sum(row_heights) + row_count
+ 1` lines.  The code violates it: on `tblC1` (one row of two zero-line
cells, a valid degenerate table) `treeify` succeeds but `render` raises an
`UnboundLocalError` — the loop variable `idx` is read at line 247 of
`table.py` without ever being assigned, because the first cell's rendered
height is 0 — so no list is returned at all. -/
theorem claim1_render_crashes_on_zero_height_row :
    coverageInvariant tblC1 = true
    ∧ tblC1.treeify.isSome = true
    ∧ tblC1.render = none :=
  ⟨rfl, rfl, rfl⟩

/-- C3: the claim asserts that a zero-line cell contributes 0 to sizing and
that rendering still returns the full grid without raising.  The sizing
policy holds on `tblC3` (`row_heights = [0]`, `column_widths = [1]`: the
zero-line cell contributed nothing beyond the declared width), but `render`
raises an `UnboundLocalError` (unassigned loop variable `idx` at line 247
of `table.py`, reached because the cell's height is 0) instead of
returning the rendered grid. -/
theorem claim3_zero_line_cell_render_raises :
    coverageInvariant tblC3 = true
    ∧ tblC3.treeify
        = some ⟨none, [0], [1], [TreeCell.mk ⟨[], false, 0, 0⟩ 0 0 []]⟩
    ∧ tblC3.render = none :=
  ⟨rfl, rfl, rfl⟩

/-- C7: the claim asserts that for every table satisfying the coverage
invariant `render` returns strings of equal length `sum(column_widths) +
column_count + 1`.  On `tblC7` (a single zero-line cell, a valid
degenerate table) the code returns no strings at all: `render` raises an
`UnboundLocalError` (unassigned loop variable `idx`, line 247 of
`table.py`). -/
theorem claim7_render_width_contract_crashes :
    coverageInvariant tblC7 = true
    ∧ tblC7.treeify.isSome = true
    ∧ tblC7.render = none :=
  ⟨rfl, rfl, rfl⟩

/-- C5: in the span expansion pass, a deferred cell whose content fits in
the space already covered by its span (the covered rows/columns plus one
divider per internal boundary) changes nothing; otherwise the entire
shortfall is added to the origin row's height (origin column's width) and
no other row/column changes. -/
theorem claim5_span_expansion_step :
    (∀ (hs out : List Nat) (pc : PCell), expandRowStep hs pc = some out →
      (pc.content.content_height ≤ coveredHeight hs pc → out = hs)
      ∧ (coveredHeight hs pc < pc.content.content_height →
          out.getD pc.row 0 = hs.getD pc.row 0
            + (pc.content.content_height - coveredHeight hs pc)
          ∧ ∀ j, j ≠ pc.row → out.getD j 0 = hs.getD j 0))
    ∧ (∀ (ws out : List Nat) (pc : PCell), expandColStep ws pc = some out →
      (pc.content.content_width ≤ coveredWidth ws pc → out = ws)
      ∧ (coveredWidth ws pc < pc.content.content_width →
          out.getD pc.column 0 = ws.getD pc.column 0
            + (pc.content.content_width - coveredWidth ws pc)
          ∧ ∀ j, j ≠ pc.column → out.getD j 0 = ws.getD j 0)) := by
  constructor
  · intro hs out pc h
    obtain ⟨hfit, hgrow⟩ := expandRowStep_spec h
    refine ⟨hfit, fun hlt => ?_⟩
    rw [hgrow hlt]
    have hr : pc.row < hs.length := by
      unfold expandRowStep at h
      cases hg : hs.get? pc.row with
      | none => rw [hg] at h; exact Option.noConfusion h
      | some h0 =>
        by_contra hge
        rw [List.get?_eq_getElem?, List.getElem?_eq_none (by omega)] at hg
        exact Option.noConfusion hg
    constructor
    · rw [List.getD_eq_getElem?_getD, List.getElem?_set_self' ]
      rw [List.getElem?_eq_getElem hr]
      simp [List.getD_eq_getElem?_getD, List.getElem?_eq_getElem hr]
    · intro j hj
      rw [List.getD_eq_getElem?_getD, List.getElem?_set_ne (by omega),
        ← List.getD_eq_getElem?_getD]
  · intro ws out pc h
    obtain ⟨hfit, hgrow⟩ := expandColStep_spec h
    refine ⟨hfit, fun hlt => ?_⟩
    rw [hgrow hlt]
    have hr : pc.column < ws.length := by
      unfold expandColStep at h
      cases hg : ws.get? pc.column with
      | none => rw [hg] at h; exact Option.noConfusion h
      | some w0 =>
        by_contra hge
        rw [List.get?_eq_getElem?, List.getElem?_eq_none (by omega)] at hg
        exact Option.noConfusion hg
    constructor
    · rw [List.getD_eq_getElem?_getD, List.getElem?_set_self' ]
      rw [List.getElem?_eq_getElem hr]
      simp [List.getD_eq_getElem?_getD, List.getElem?_eq_getElem hr]
    · intro j hj
      rw [List.getD_eq_getElem?_getD, List.getElem?_set_ne (by omega),
        ← List.getD_eq_getElem?_getD]

/-- Witness for C5 at concrete inputs: a 4-line rowspan over heights
`[1, 1]` (covered space 3) grows the origin row to 2, and a 9-character
colspan over widths `[4, 3]` (covered space 8) grows the origin column to
5, matching the repository's own unit tests. -/
theorem claim5_span_expansion_step_witness :
    (coveredHeight [1, 1] pcRow5 < pcRow5.content.content_height
      ∧ [2, 1].getD pcRow5.row 0 = [1, 1].getD pcRow5.row 0
          + (pcRow5.content.content_height - coveredHeight [1, 1] pcRow5))
    ∧ (coveredWidth [4, 3] pcCol5 < pcCol5.content.content_width
      ∧ [5, 3].getD pcCol5.column 0 = [4, 3].getD pcCol5.column 0
          + (pcCol5.content.content_width - coveredWidth [4, 3] pcCol5)) :=
  ⟨⟨by decide,
    ((claim5_span_expansion_step.1 [1, 1] [2, 1] pcRow5 (by decide)).2
      (by decide)).1⟩,
   ⟨by decide,
    ((claim5_span_expansion_step.2 [4, 3] [5, 3] pcCol5 (by decide)).2
      (by decide)).1⟩⟩

/-- C8: `treeify` of a table with no rows returns the empty `TreeTable`
(no header row, no row heights, no column widths, no top-row cells),
whatever the declared column widths. -/
theorem claim8_empty_table (cw : List Nat) (hdr : Bool) :
    Table.treeify ⟨cw, hdr, []⟩ = some ⟨none, [], [], []⟩ :=
  rfl

/-- C10: a table whose rows list is non-empty but consists of a single
empty cell list (and has no declared columns) makes `treeify` fail — in
the source, `max(row_heights.keys())` raises `ValueError` on the empty
dict — instead of returning a `TreeTable`. -/
theorem claim10_empty_row_list_not_empty_table :
    tblC10.treeify = none :=
  rfl

end RstWriter
